import Mathlib

/-!
Verification of the WhatsApp chat cleaning pipeline (clean_raw_chats.py).

The development shallowly embeds the pipeline: the regular expressions of the
source are transcribed as abstract syntax trees for a backtracking matcher with
the semantics of the Python re module (leftmost match, ordered alternation,
greedy and lazy quantifiers with backtracking, word boundaries, captures), and
the processing functions (clean_message, is_irrelevant, parse_message_block,
block segmentation, per file aggregation, batch processing) are translated
function by function. Character predicates (word characters, whitespace,
printable characters) model the Python semantics on the character repertoire
exercised by this repository: ASCII plus the emoji ranges of EMOJI_PATTERN.
-/

/-! ## Character classes -/

def isDigitC (c : Char) : Bool := 0x30 ≤ c.toNat && c.toNat ≤ 0x39

def isUpperAZ (c : Char) : Bool := 0x41 ≤ c.toNat && c.toNat ≤ 0x5A

def isLowerAZ (c : Char) : Bool := 0x61 ≤ c.toNat && c.toNat ≤ 0x7A

/-- Python regex word character: [a-zA-Z0-9_] (ASCII fragment of unicode \w). -/
def isWordC (c : Char) : Bool := isDigitC c || isUpperAZ c || isLowerAZ c || c.toNat = 0x5F

/-- Python str whitespace as recognized by the re module and str.strip. -/
def isPySpace (c : Char) : Bool :=
  c.toNat = 0x20 || c.toNat = 0x09 || c.toNat = 0x0A || c.toNat = 0x0D ||
  c.toNat = 0x0B || c.toNat = 0x0C ||
  (0x1C ≤ c.toNat && c.toNat ≤ 0x1F) || c.toNat = 0x85 || c.toNat = 0xA0 ||
  c.toNat = 0x1680 ||
  (0x2000 ≤ c.toNat && c.toNat ≤ 0x200A) || c.toNat = 0x2028 || c.toNat = 0x2029 ||
  c.toNat = 0x202F || c.toNat = 0x205F || c.toNat = 0x3000

/-- Python str.isprintable, modelled for the control and format characters that
occur in chat exports (ASCII controls, C1 controls, unicode spaces and
direction or joiner format characters); ordinary text and emoji are printable. -/
def isPyPrintable (c : Char) : Bool :=
  0x20 ≤ c.toNat && c.toNat ≠ 0x7F && !(0x80 ≤ c.toNat && c.toNat ≤ 0x9F) &&
  !(isPySpace c && c.toNat ≠ 0x20) && !(0x200B ≤ c.toNat && c.toNat ≤ 0x200F) &&
  c.toNat ≠ 0xAD && !(0x202A ≤ c.toNat && c.toNat ≤ 0x202E) && c.toNat ≠ 0xFEFF

/-- The character ranges of EMOJI_PATTERN in the source. -/
def emojiChar (c : Char) : Bool :=
  (0x1F600 ≤ c.toNat && c.toNat ≤ 0x1F64F) || (0x1F300 ≤ c.toNat && c.toNat ≤ 0x1F5FF) ||
  (0x1F680 ≤ c.toNat && c.toNat ≤ 0x1F6FF) || (0x1F1E0 ≤ c.toNat && c.toNat ≤ 0x1F1FF) ||
  (0x2700 ≤ c.toNat && c.toNat ≤ 0x27BF) || (0x1F900 ≤ c.toNat && c.toNat ≤ 0x1F9FF) ||
  (0x1FA70 ≤ c.toNat && c.toNat ≤ 0x1FAFF) || (0x2600 ≤ c.toNat && c.toNat ≤ 0x26FF)

/-! ## String helpers mirroring Python str methods -/

/-- str.strip with no arguments: drop whitespace from both ends. -/
def pyStripL (s : List Char) : List Char :=
  ((s.dropWhile isPySpace).reverse.dropWhile isPySpace).reverse

def pyStrip (s : String) : String := ⟨pyStripL s.data⟩

/-- strip_invisible from the source: keep printable characters, then strip. -/
def strip_invisible (s : String) : String := ⟨pyStripL (s.data.filter isPyPrintable)⟩

/-- str.lower, ASCII fragment. -/
def strLower (s : String) : String := ⟨s.data.map Char.toLower⟩

/-! ## A backtracking regex matcher with Python re semantics

The matcher returns the list of all matches at the current position, in the
priority order of the Python backtracking engine: the head of the list is the
match Python reports. Each result is the pair of the consumed characters and
the captured groups. The previous character is threaded for word boundaries
and the begin anchor. Fuel bounds the recursion depth; every recursive call
spends one unit, so a fuel beyond the pattern depth plus the input length is
never exhausted. -/

/-- Captured groups: group index paired with the captured characters. -/
abbrev Caps : Type := List (Nat × List Char)

inductive RE where
  | eps
  | cls (p : Char → Bool)
  | seq (a b : RE)
  | alt (a b : RE)
  | rep (a : RE) (lo : Nat) (hi : Option Nat) (greedy : Bool)
  | wordB
  | bol
  | eol
  | grp (n : Nat) (a : RE)

/-- The character preceding the current position after consuming c. -/
def lastOpt (c : List Char) (prev : Option Char) : Option Char :=
  match c.getLast? with
  | some x => some x
  | none => prev

def isWordOpt : Option Char → Bool
  | some c => isWordC c
  | none => false

def hdWord : List Char → Bool
  | c :: _ => isWordC c
  | [] => false

def mrun : Nat → RE → Option Char → List Char → List (List Char × Caps)
  | 0, _, _, _ => []
  | _ + 1, .eps, _, _ => [([], [])]
  | _ + 1, .cls p, _, s =>
      match s with
      | [] => []
      | c :: _ => if p c then [([c], [])] else []
  | fuel + 1, .seq a b, prev, s =>
      (mrun fuel a prev s).flatMap fun r1 =>
        (mrun fuel b (lastOpt r1.1 prev) (s.drop r1.1.length)).map fun r2 =>
          (r1.1 ++ r2.1, r1.2 ++ r2.2)
  | fuel + 1, .alt a b, prev, s => mrun fuel a prev s ++ mrun fuel b prev s
  | fuel + 1, .rep a lo hi g, prev, s =>
      let more :=
        if hi = some 0 then []
        else
          (mrun fuel a prev s).flatMap fun r1 =>
            if r1.1.isEmpty then []
            else
              (mrun fuel (.rep a (lo - 1) (hi.map (fun h => h - 1)) g)
                  (lastOpt r1.1 prev) (s.drop r1.1.length)).map
                fun r2 => (r1.1 ++ r2.1, r1.2 ++ r2.2)
      let stop := if lo = 0 then [(([] : List Char), ([] : Caps))] else []
      if g then more ++ stop else stop ++ more
  | _ + 1, .wordB, prev, s => if isWordOpt prev != hdWord s then [([], [])] else []
  | _ + 1, .bol, prev, _ => if prev.isNone then [([], [])] else []
  | _ + 1, .eol, _, s => if s = [] || s = ['\n'] then [([], [])] else []
  | fuel + 1, .grp n a, prev, s =>
      (mrun fuel a prev s).map fun r => (r.1, r.2 ++ [(n, r.1)])

/-- Fuel that is always sufficient for the patterns of this repository. -/
def bigFuel (s : List Char) : Nat := 2 * s.length + 100

/-- re.match: attempt a match at the start of the string; the head of the
result list is the match Python reports. -/
def reMatch (r : RE) (s : String) : Option (List Char × Caps) :=
  (mrun (bigFuel s.data) r none s.data).head?

/-- re.fullmatch viewed as a Boolean test. -/
def reFullmatchB (r : RE) (s : String) : Bool :=
  (mrun (bigFuel s.data) r none s.data).any fun x => x.1.length = s.data.length

/-- One scanning pass of re.sub: at each position try a match; on success emit
the replacement and continue after the consumed characters (Python advances by
one character when a match is empty). -/
def subGo (r : RE) (repl : List Char) : Nat → Option Char → List Char → List Char
  | 0, _, s => s
  | f + 1, prev, s =>
      match (mrun (bigFuel s) r prev s).head? with
      | some res =>
          if res.1.length = 0 then
            match s with
            | [] => repl
            | c :: rest => repl ++ c :: subGo r repl f (some c) rest
          else
            repl ++ subGo r repl f (lastOpt res.1 prev) (s.drop res.1.length)
      | none =>
          match s with
          | [] => []
          | c :: rest => c :: subGo r repl f (some c) rest

/-- re.sub with a fixed replacement string. -/
def pySub (r : RE) (repl : String) (s : String) : String :=
  ⟨subGo r repl.data (s.data.length + 1) none s.data⟩

/-- Group extraction from a match result. -/
def capGroup (res : List Char × Caps) (n : Nat) : String :=
  match (res.2.find? fun x => x.1 = n) with
  | some x => ⟨x.2⟩
  | none => ""

/-! ## Pattern construction helpers -/

def lit (c : Char) : RE := .cls fun x => x = c

def litCI (c : Char) : RE := .cls fun x => x.toLower = c.toLower

def seqs (l : List RE) : RE := l.foldr .seq .eps

/-- A literal string pattern. -/
def strR (s : String) : RE := seqs (s.data.map lit)

/-- A case insensitive literal string pattern. -/
def strCI (s : String) : RE := seqs (s.data.map litCI)

/-- The regex dot: any character except a newline. -/
def dotC : RE := .cls fun c => c ≠ '\n'

/-- The class \d. -/
def dpat : RE := .cls isDigitC

/-- An optional fragment, pattern question mark (greedy). -/
def opt (r : RE) : RE := .rep r 0 (some 1) true

def rng (a b : Char) : RE := .cls fun c => a.toNat ≤ c.toNat && c.toNat ≤ b.toNat

/-- The class [A-Z0-9]. -/
def upAlnum (c : Char) : Bool := isUpperAZ c || isDigitC c

/-- A media placeholder entry compiled as Python would: letters are case
insensitive literals and an unescaped dot matches any character. -/
def mediaRE (s : String) : RE :=
  seqs (s.data.map fun c => if c = '.' then dotC else litCI c)

/-! ## The patterns of the source, transcribed -/

/-- TIMESTAMP_PATTERN from the source. -/
def TIMESTAMP_PATTERN : RE :=
  seqs [lit '[',
        .grp 1 (seqs [.rep dpat 2 (some 2) true, lit '/', .rep dpat 2 (some 2) true,
                      lit '/', .rep dpat 4 (some 4) true]),
        strR ", ",
        .grp 2 (seqs [.rep dpat 2 (some 2) true, lit ':', .rep dpat 2 (some 2) true,
                      lit ':', .rep dpat 2 (some 2) true]),
        strR "] ",
        .grp 3 (.rep dotC 1 none false),
        strR ": ",
        .grp 4 (.rep dotC 0 none true)]

/-- LINK_PATTERN from the source. -/
def LINK_PATTERN : RE :=
  seqs [strR "http", opt (lit 's'), strR "://", .rep (.cls fun c => !isPySpace c) 1 none true]

/-- The edit marker removed case insensitively by clean_message. -/
def EDITED_PATTERN : RE := strCI "<This message was edited>"

/-- IBAN_PATTERN from the source. -/
def IBAN_PATTERN : RE :=
  seqs [.wordB, .rep (rng 'A' 'Z') 2 (some 2) true, .rep dpat 2 (some 2) true,
        .rep (.seq (opt (lit ' ')) (.cls upAlnum)) 11 (some 30) true, .wordB]

/-- RIB_PATTERN from the source. -/
def RIB_PATTERN : RE :=
  seqs [.wordB, .rep (.cls upAlnum) 10 (some 34) true, .wordB]

/-- CREDIT_CARD_PATTERN from the source. -/
def CREDIT_CARD_PATTERN : RE :=
  seqs [.wordB, .rep (.seq dpat (opt (.cls fun c => c = ' ' || c = '-'))) 13 (some 19) true,
        dpat, .wordB]

/-- The class [\s-]. -/
def spDash : RE := .cls fun c => isPySpace c || c = '-'

/-- PHONE_PATTERN from the source. -/
def PHONE_PATTERN : RE :=
  seqs [.wordB,
        opt (seqs [opt (lit '+'), .rep dpat 1 (some 3) true, opt spDash]),
        opt (seqs [opt (lit '('), .rep dpat 2 (some 4) true, opt (lit ')'), opt spDash]),
        .rep dpat 3 (some 4) true, opt spDash, .rep dpat 3 (some 4) true, .wordB]

def emailLocalC (c : Char) : Bool :=
  isLowerAZ c || isUpperAZ c || isDigitC c || c = '.' || c = '_' || c = '%' || c = '+' || c = '-'

def emailDomC (c : Char) : Bool :=
  isLowerAZ c || isUpperAZ c || isDigitC c || c = '.' || c = '-'

/-- EMAIL_PATTERN from the source. -/
def EMAIL_PATTERN : RE :=
  seqs [.rep (.cls emailLocalC) 1 none true, lit '@', .rep (.cls emailDomC) 1 none true,
        lit '.', .rep (rng 'a' 'z') 2 none true]

/-- BIC_PATTERN from the source (the branch suffix group is not captured;
captures are irrelevant to substitution). -/
def BIC_PATTERN : RE :=
  seqs [.wordB, .rep (rng 'A' 'Z') 4 (some 4) true, opt (lit ' '),
        .rep (rng 'A' 'Z') 2 (some 2) true, opt (lit ' '), .rep (.cls upAlnum) 2 (some 2) true,
        opt (.seq (opt (lit ' ')) (.rep (.cls upAlnum) 3 (some 3) true)), .wordB]

/-- EMOJI_ONLY_PATTERN from the source; [\W\s] is the union of non word and
whitespace characters. -/
def EMOJI_ONLY_PATTERN : RE :=
  seqs [.bol, .rep (.cls fun c => !isWordC c || isPySpace c) 1 none true, .eol]

/-- EMOJI_PATTERN from the source: one or more characters of the emoji ranges. -/
def EMOJI_PATTERN : RE := .rep (.cls emojiChar) 1 none true

/-- MEDIA_PATTERNS from the source, in order. -/
def MEDIA_PATTERNS : List RE :=
  [mediaRE "image omitted", mediaRE "video omitted", mediaRE "GIF omitted",
   mediaRE "sticker omitted", mediaRE "audio omitted", mediaRE "document omitted",
   mediaRE "media omitted", mediaRE "file omitted", mediaRE "Contact card omitted",
   mediaRE "Location omitted", mediaRE "Live location ended", mediaRE "Live location shared",
   mediaRE "You deleted this message.", mediaRE "This message was deleted.",
   .seq (mediaRE "Messages and calls are end-to-end encrypted") (.rep dotC 0 none true)]

/-- The call notice pattern of is_irrelevant. -/
def CALL_PATTERN : RE :=
  seqs [opt (strCI "Missed "), .alt (strCI "Voice") (strCI "Video"), strCI " call",
        opt (.seq (strCI ", ") (.rep dotC 0 none true))]

/-- The trailing timestamp safeguard pattern of parse_message_block. -/
def SAFEGUARD_PATTERN : RE :=
  seqs [opt (lit '\n'), lit '[', .rep dpat 2 (some 2) true, lit '/',
        .rep dpat 2 (some 2) true, lit '/', .rep dpat 4 (some 4) true, strR ", ",
        .rep dpat 2 (some 2) true, lit ':', .rep dpat 2 (some 2) true, lit ':',
        .rep dpat 2 (some 2) true, lit ']', .rep dotC 1 none false, lit ':',
        .rep (.cls isPySpace) 0 none true, .eol]

/-! ## The cleaning pipeline (clean_raw_chats.py) -/

def USER_NAME : String := "Iomar"

def SOURCE : String := "whatsapp"

/-- remove_emojis from the source. -/
def remove_emojis (t : String) : String := pySub EMOJI_PATTERN "" t

/-- clean_message from the source: emoji and link and edit marker removal, then
the ordered redaction passes, then strip. -/
def clean_message (t : String) : String :=
  let t1 := remove_emojis t
  let t2 := pySub LINK_PATTERN "" t1
  let t3 := pySub EDITED_PATTERN "" t2
  let t4 := pySub IBAN_PATTERN "[REDACTED_IBAN]" t3
  let t5 := pySub RIB_PATTERN "[REDACTED_RIB]" t4
  let t6 := pySub CREDIT_CARD_PATTERN "[REDACTED_CARD]" t5
  let t7 := pySub PHONE_PATTERN "[REDACTED_PHONE]" t6
  let t8 := pySub EMAIL_PATTERN "[REDACTED_EMAIL]" t7
  let t9 := pySub BIC_PATTERN "[REDACTED_BIC]" t8
  pyStrip t9

/-- The short acknowledgment list of is_irrelevant (two entries are the
mojibake artifacts present verbatim in the source). -/
def ACK_LIST : List String := ["ok", "lol", "üëç", "üëå", "yes", "no"]

/-- is_irrelevant from the source. -/
def is_irrelevant (t : String) : Bool :=
  let stripped := pyStrip t
  if MEDIA_PATTERNS.any (fun p => reFullmatchB p stripped) then true
  else if reFullmatchB CALL_PATTERN stripped then true
  else if reFullmatchB EMOJI_ONLY_PATTERN (remove_emojis stripped) then true
  else if ACK_LIST.contains (strLower stripped) then true
  else false

/-! ## Date validation (datetime.strptime with format %d/%m/%Y %H:%M:%S) -/

def isLeap (y : Nat) : Bool := y % 4 = 0 && (y % 100 ≠ 0 || y % 400 = 0)

def daysInMonth (y m : Nat) : Nat :=
  if m = 2 then (if isLeap y then 29 else 28)
  else if m = 4 || m = 6 || m = 9 || m = 11 then 30
  else 31

def toNatDigits (s : List Char) : Nat := s.foldl (fun a c => a * 10 + (c.toNat - 48)) 0

/-- Validity of the calendar date and time exactly as datetime.strptime and the
datetime constructor enforce it (datetime years run from 1 to 9999). -/
def validDateTime (d mo y hh mi ss : Nat) : Bool :=
  1 ≤ y && y ≤ 9999 && 1 ≤ mo && mo ≤ 12 && 1 ≤ d && d ≤ daysInMonth y mo &&
  hh ≤ 23 && mi ≤ 59 && ss ≤ 59

/-- The fields of a header date string DD/MM/YYYY and time string HH:MM:SS. -/
def dateFields (dateS timeS : String) : Nat × Nat × Nat × Nat × Nat × Nat :=
  (toNatDigits (dateS.data.take 2), toNatDigits ((dateS.data.drop 3).take 2),
   toNatDigits (dateS.data.drop 6), toNatDigits (timeS.data.take 2),
   toNatDigits ((timeS.data.drop 3).take 2), toNatDigits (timeS.data.drop 6))

def validHeaderDate (dateS timeS : String) : Bool :=
  let f := dateFields dateS timeS
  validDateTime f.1 f.2.1 f.2.2.1 f.2.2.2.1 f.2.2.2.2.1 f.2.2.2.2.2

/-- dt.date().isoformat() for a DD/MM/YYYY date string. -/
def isoDate (dateS : String) : String :=
  ⟨dateS.data.drop 6 ++ '-' :: (dateS.data.drop 3).take 2 ++ '-' :: dateS.data.take 2⟩

/-! ## Message parsing -/

structure Msg where
  role : String
  text : String
  date : String
  peer : String
deriving DecidableEq, Repr

/-- The line joining of a list of strings with a newline, str.join. -/
def joinLines : List String → String
  | [] => ""
  | [l] => l
  | l :: ls => l ++ "\n" ++ joinLines ls

/-- The continuation line filter inside parse_message_block: drop accidental
timestamp lines, clean the rest, keep the non empty results. -/
def filterBodyLines (lines : List String) : List String :=
  lines.foldr
    (fun l acc =>
      let stripped := strip_invisible l
      if (reMatch TIMESTAMP_PATTERN stripped).isSome then acc
      else
        let cleaned := clean_message stripped
        if cleaned = "" then acc else cleaned :: acc)
    []

/-- parse_message_block from the source. The Except layer models Python
exception propagation: an invalid calendar header raises out of the function,
while a rejected block is logged and reported as none. An empty block would
raise an IndexError on block[0]; segmentation never produces one. -/
def parse_message_block (block : List String) : Except String (Option Msg) :=
  match block with
  | [] => .error "IndexError"
  | b0 :: rest =>
    let line := strip_invisible b0
    match reMatch TIMESTAMP_PATTERN line with
    | none => .ok none
    | some m =>
      let dateS := capGroup m 1
      let timeS := capGroup m 2
      let sender := capGroup m 3
      let firstLine := capGroup m 4
      if validHeaderDate dateS timeS then
        let full0 := joinLines (filterBodyLines (firstLine :: rest))
        let fullText := pyStrip (pySub SAFEGUARD_PATTERN "" full0)
        if fullText = "" then .ok none
        else if is_irrelevant fullText then .ok none
        else
          let role := if pyStrip sender = USER_NAME then "user" else "assistant"
          let peer := if role = "assistant" then pyStrip sender else USER_NAME
          .ok (some ⟨role, fullText, isoDate dateS, peer⟩)
      else .error "ValueError"

/-! ## Block segmentation -/

def isHeaderLine (l : String) : Bool := (reMatch TIMESTAMP_PATTERN (strip_invisible l)).isSome

/-- The segmentation loop of process_chat_file, with the accumulated blocks and
the currently open block threaded; the final open block is flushed at the end. -/
def segGo : List String → List (List String) → List String → List (List String)
  | [], blocks, cur => if cur.isEmpty then blocks else blocks ++ [cur]
  | l :: rest, blocks, cur =>
      if isHeaderLine l then
        segGo rest (if cur.isEmpty then blocks else blocks ++ [cur]) [l]
      else if cur.isEmpty then segGo rest blocks []
      else segGo rest blocks (cur ++ [l])

/-- The message_blocks list computed by process_chat_file. -/
def message_blocks (lines : List String) : List (List String) := segGo lines [] []

/-! ## Per file aggregation -/

structure DEntry where
  role : String
  text : String
deriving DecidableEq, Repr

structure Meta where
  source : String
  date : String
  peer : String
deriving DecidableEq, Repr

structure ConvRecord where
  dialogue : List DEntry
  meta : Meta
deriving DecidableEq, Repr

/-- defaultdict(list) access followed by append, preserving first insertion
order of the keys. -/
def appendAssoc (k : String) (v : DEntry) :
    List (String × List DEntry) → List (String × List DEntry)
  | [] => [(k, [v])]
  | e :: rest => if e.1 = k then (e.1, e.2 ++ [v]) :: rest else e :: appendAssoc k v rest

def lookupAssoc {α : Type} (k : String) : List (String × α) → Option α
  | [] => none
  | e :: rest => if e.1 = k then some e.2 else lookupAssoc k rest

/-- Python truthiness of the peer_name variable (None or a string). -/
def pyFalsy : Option String → Bool
  | none => true
  | some s => s = ""

/-- The mutable state of the aggregation loop of process_chat_file. -/
structure AggSt where
  daily : List (String × List DEntry)
  peersByDate : List (String × String)
  peerName : Option String
deriving Repr

/-- One accepted message processed by the aggregation loop. -/
def stepAgg (st : AggSt) (m : Msg) : AggSt :=
  let pn := if m.role = "assistant" && pyFalsy st.peerName then some m.peer else st.peerName
  let pbd :=
    if m.role = "assistant" && (lookupAssoc m.date st.peersByDate).isNone then
      st.peersByDate ++ [(m.date, m.peer)]
    else st.peersByDate
  ⟨appendAssoc m.date ⟨m.role, m.text⟩ st.daily, pbd, pn⟩

/-- The block loop of process_chat_file; a parse exception aborts the file. -/
def procBlocks : List (List String) → AggSt → Except String AggSt
  | [], st => .ok st
  | b :: rest, st =>
      match parse_message_block b with
      | .error e => .error e
      | .ok none => procBlocks rest st
      | .ok (some m) => procBlocks rest (stepAgg st m)

/-- Code point lexicographic string order, the comparison Python sorted uses
on the date keys. -/
def strLt : List Char → List Char → Bool
  | [], [] => false
  | [], _ :: _ => true
  | _ :: _, [] => false
  | a :: as, b :: bs =>
      if a.val < b.val then true
      else if b.val < a.val then false
      else strLt as bs

/-- Insertion into a list sorted by date key ascending. -/
def insertByDate (x : String × List DEntry) :
    List (String × List DEntry) → List (String × List DEntry)
  | [] => [x]
  | y :: ys => if strLt x.1.data y.1.data then x :: y :: ys else y :: insertByDate x ys

/-- sorted(daily_conversations.items()): the date keys are distinct, so sorting
by the key ascending matches the Python sort. -/
def sortByDate (l : List (String × List DEntry)) : List (String × List DEntry) :=
  l.foldr insertByDate []

/-- peer_name or a default, the Python expression peer_name or "Unknown". -/
def peerOrUnknown : Option String → String
  | none => "Unknown"
  | some s => if s = "" then "Unknown" else s

/-- The record emission loop of process_chat_file. -/
def mkRecords (st : AggSt) : List ConvRecord :=
  (sortByDate st.daily).map fun x =>
    ⟨x.2, ⟨SOURCE, x.1,
      match lookupAssoc x.1 st.peersByDate with
      | some p => p
      | none => peerOrUnknown st.peerName⟩⟩

/-- process_chat_file from the source, for the list of lines of one file; file
reading and skip logging are I O and are not modelled. -/
def process_chat_file (lines : List String) : Except String (List ConvRecord × String) :=
  (procBlocks (message_blocks lines) ⟨[], [], none⟩).map fun st =>
    (mkRecords st, peerOrUnknown st.peerName)

/-! ## Batch processing -/

def strEndsWith (suf s : List Char) : Bool := suf.reverse.isPrefixOf s.reverse

def containsSub (sub : List Char) : List Char → Bool
  | [] => sub.isEmpty
  | c :: rest => sub.isPrefixOf (c :: rest) || containsSub sub rest

/-- The filename filter of process_all_chats. -/
def chatFileName (name : String) : Bool :=
  strEndsWith ".txt".data name.data && containsSub "chat".data (strLower name).data

/-- The batch loop of process_all_chats over the listed files, each given as a
name and its lines; an exception escaping process_chat_file aborts the batch,
as the source has no handler around the call. -/
def paGo : List (String × List String) → List ConvRecord → Except String (List ConvRecord)
  | [], acc => .ok acc
  | f :: rest, acc =>
      if chatFileName f.1 then
        match process_chat_file f.2 with
        | .error e => .error e
        | .ok r => paGo rest (acc ++ r.1)
      else paGo rest acc

/-- process_all_chats from the source: the collected all_conversations list, or
the first escaped exception. -/
def process_all_chats (files : List (String × List String)) : Except String (List ConvRecord) :=
  paGo files []

set_option maxRecDepth 10000

/-! ## Claim C1 (scenario 1)

The claimed text is wrong: PHONE_PATTERN demands a run of at least three
consecutive digits before and after the optional separator, so the pair
grouped number 06 12 34 56 78 is matched by none of the redaction passes and
survives unchanged. The accepted message and its user role are as claimed. -/

/-- C1, counterexample: on the scenario 1 input line the pipeline accepts a
user role message, but its text is the unredacted line, not the claimed
Call me at [REDACTED_PHONE]. -/
theorem C1_counterexample :
    parse_message_block ["[05/03/2024, 14:22:10] Iomar: Call me at 06 12 34 56 78"] =
      .ok (some ⟨"user", "Call me at 06 12 34 56 78", "2024-03-05", "Iomar"⟩) ∧
    ("Call me at 06 12 34 56 78" : String) ≠ "Call me at [REDACTED_PHONE]" :=
  ⟨rfl, by decide⟩

/-- C1, amended: the scenario 1 line yields an accepted message with role user
and text exactly the original line body, the phone number unredacted. -/
theorem C1_amended :
    parse_message_block ["[05/03/2024, 14:22:10] Iomar: Call me at 06 12 34 56 78"] =
      .ok (some ⟨"user", "Call me at 06 12 34 56 78", "2024-03-05", "Iomar"⟩) := rfl

/-! ## Claim C5 (redaction order)

A contiguous ten digit phone number is consumed by the earlier generic RIB
pass, so the claim that the phone span always becomes [REDACTED_PHONE] fails;
with grouped digits both spans are redacted independently as claimed. -/

/-- C5, counterexample: a line holding an IBAN shaped token and a plain
contiguous phone number redacts the phone span as [REDACTED_RIB], not as
[REDACTED_PHONE]; no [REDACTED_PHONE] token occurs in the output. -/
theorem C5_counterexample :
    clean_message "FR7612345678901 and 0612345678" = "[REDACTED_IBAN] and [REDACTED_RIB]" ∧
    containsSub "[REDACTED_PHONE]".data
      (clean_message "FR7612345678901 and 0612345678").data = false :=
  ⟨rfl, rfl⟩

/-- C5, amended: both spans are redacted independently when the phone digits
are grouped so that a three or four digit run exists; the IBAN becomes
[REDACTED_IBAN] and the phone becomes [REDACTED_PHONE], neither pass consuming
characters of the other span. A contiguous digit phone is instead consumed by
the earlier RIB pass. -/
theorem C5_amended :
    clean_message "FR7612345678901 and 0612 345 678" =
      "[REDACTED_IBAN] and [REDACTED_PHONE]" := rfl

/-! ## Claim C6, counterexample part

For a message of emoji only, the remainder after emoji removal is empty, and
re.fullmatch of [\W\s]+ on the empty string fails (the plus demands at least
one character), so is_irrelevant returns false on such a text. -/

/-- C6, counterexample: an emoji only text has empty remainder after emoji
removal, yet the relevance filter does not classify it as irrelevant. -/
theorem C6_counterexample :
    remove_emojis (pyStrip "😀") = "" ∧ is_irrelevant "😀" = false :=
  ⟨rfl, rfl⟩

/-! ## Error propagation through the block loop and the batch loop -/

/-- If some block of a file fails to parse with an exception, the block loop of
process_chat_file ends in that or an earlier exception, whatever state it
starts from. -/
theorem procBlocks_error_of_mem (blocks : List (List String)) (b : List String)
    (hb : b ∈ blocks) (e : String) (he : parse_message_block b = .error e) :
    ∀ st, ∃ e2, procBlocks blocks st = .error e2 := by
  induction blocks with
  | nil => cases hb
  | cons b' rest ih =>
    intro st
    rcases List.mem_cons.mp hb with hb' | hbrest
    · subst hb'
      exact ⟨e, by simp [procBlocks, he]⟩
    · cases hp : parse_message_block b' with
      | error e' => exact ⟨e', by simp [procBlocks, hp]⟩
      | ok o =>
        cases o with
        | none =>
          obtain ⟨e2, h2⟩ := ih hbrest st
          exact ⟨e2, by simp [procBlocks, hp, h2]⟩
        | some m =>
          obtain ⟨e2, h2⟩ := ih hbrest (stepAgg st m)
          exact ⟨e2, by simp [procBlocks, hp, h2]⟩

/-- If an eligible file of the batch fails with an exception, the batch loop
ends in an exception, whatever the accumulator holds. -/
theorem paGo_error_of_mem (files : List (String × List String)) (f : String × List String)
    (hf : f ∈ files) (hname : chatFileName f.1 = true) (e : String)
    (he : process_chat_file f.2 = .error e) :
    ∀ acc, ∃ e2, paGo files acc = .error e2 := by
  induction files with
  | nil => cases hf
  | cons f' rest ih =>
    intro acc
    rcases List.mem_cons.mp hf with hf' | hfrest
    · subst hf'
      exact ⟨e, by simp [paGo, hname, he]⟩
    · by_cases hn' : chatFileName f'.1 = true
      · cases hp : process_chat_file f'.2 with
        | error e' => exact ⟨e', by simp [paGo, hn', hp]⟩
        | ok r =>
          obtain ⟨e2, h2⟩ := ih hfrest (acc ++ r.1)
          exact ⟨e2, by simp [paGo, hn', hp, h2]⟩
      · obtain ⟨e2, h2⟩ := ih hfrest acc
        exact ⟨e2, by simp [paGo, hn', h2]⟩

/-! ## Claim C4 (invalid calendar date is fatal)

A block whose first line matches the header pattern but carries an impossible
date or time makes parse_message_block raise (model: return an error), and the
error propagates out of the processing of any file containing the block. -/

/-- C4: a syntactically matching header with an invalid calendar value makes
parsing fail fatally, and the failure escapes the processing of the file
instead of being skipped. -/
theorem C4_invalid_date_fatal (b0 : String) (rest : List String)
    (hm : (reMatch TIMESTAMP_PATTERN (strip_invisible b0)).isSome = true)
    (hv : validHeaderDate
        (capGroup ((reMatch TIMESTAMP_PATTERN (strip_invisible b0)).getD ([], [])) 1)
        (capGroup ((reMatch TIMESTAMP_PATTERN (strip_invisible b0)).getD ([], [])) 2) = false) :
    parse_message_block (b0 :: rest) = .error "ValueError" ∧
    ∀ lines, (b0 :: rest) ∈ message_blocks lines →
      ∃ e, process_chat_file lines = .error e := by
  obtain ⟨mt, hmt⟩ := Option.isSome_iff_exists.mp hm
  rw [hmt] at hv
  simp only [Option.getD_some] at hv
  have hparse : parse_message_block (b0 :: rest) = .error "ValueError" := by
    simp [parse_message_block, hmt, hv]
  refine ⟨hparse, fun lines hmem => ?_⟩
  obtain ⟨e2, h2⟩ := procBlocks_error_of_mem (message_blocks lines) (b0 :: rest) hmem
    "ValueError" hparse ⟨[], [], none⟩
  exact ⟨e2, by simp [process_chat_file, h2, Except.map]⟩

/-- C4, witness: the scenario 3 header date 31/02/2024 is fatal for its file. -/
theorem C4_witness :
    parse_message_block ["[31/02/2024, 14:22:10] Iomar: hi"] = .error "ValueError" ∧
    ∃ e, process_chat_file ["[31/02/2024, 14:22:10] Iomar: hi"] = .error e := by
  have h := C4_invalid_date_fatal "[31/02/2024, 14:22:10] Iomar: hi" [] (by decide) (by decide)
  exact ⟨h.1, h.2 ["[31/02/2024, 14:22:10] Iomar: hi"] (by decide)⟩

/-! ## Claim C3 (batch behaviour on a fatal per file failure)

The batch loop of process_all_chats has no exception handler around
process_chat_file, so a fatal failure in one file aborts the whole batch;
processing does not continue with the remaining files. -/

/-- C3, counterexample: with a first file carrying an invalid calendar header
and a second, perfectly processable file, the batch aborts with the exception
of the first file, although the second file alone processes fine. -/
theorem C3_counterexample :
    process_all_chats [("chat1.txt", ["[31/02/2024, 14:22:10] Iomar: hi"]),
                       ("chat2.txt", ["[05/03/2024, 14:22:10] Alice: hi there"])] =
      .error "ValueError" ∧
    process_chat_file ["[05/03/2024, 14:22:10] Alice: hi there"] =
      .ok ([⟨[⟨"assistant", "hi there"⟩], ⟨"whatsapp", "2024-03-05", "Alice"⟩⟩], "Alice") :=
  ⟨rfl, rfl⟩

/-- C3, amended: a fatal per file failure in any eligible file propagates out
of process_all_chats and aborts the entire batch; the remaining files are not
processed. -/
theorem C3_amended (files : List (String × List String)) (f : String × List String)
    (hf : f ∈ files) (hname : chatFileName f.1 = true) (e : String)
    (he : process_chat_file f.2 = .error e) :
    ∃ e2, process_all_chats files = .error e2 :=
  paGo_error_of_mem files f hf hname e he []

/-- C3, witness for the amended statement at the concrete two file batch. -/
theorem C3_witness :
    ∃ e2, process_all_chats [("chat1.txt", ["[31/02/2024, 14:22:10] Iomar: hi"]),
                             ("chat2.txt", ["[05/03/2024, 14:22:10] Alice: hi there"])] =
      .error e2 := by
  exact C3_amended _ ("chat1.txt", ["[31/02/2024, 14:22:10] Iomar: hi"])
    (by simp) (by decide) "ValueError" rfl

/-! ## Claim C2 (peer attribution)

The first half of the claim holds: an assistant role message carries the
trimmed sender as its peer, a value different from the self identity. The
second half fails: parse_message_block sets peer to the self identity for
every accepted user role message, so the self identity is produced as a peer
value. -/

/-- C2, counterexample: an accepted message sent by the self identity carries
the self identity itself as its peer value. -/
theorem C2_counterexample :
    parse_message_block ["[05/03/2024, 14:22:10] Iomar: hello there"] =
      .ok (some ⟨"user", "hello there", "2024-03-05", "Iomar"⟩) ∧
    Msg.peer ⟨"user", "hello there", "2024-03-05", "Iomar"⟩ = USER_NAME :=
  ⟨rfl, rfl⟩

/-- C2, amended: for every accepted message, an assistant role message has the
trimmed header sender, distinct from the self identity, as its peer; a user
role message has the self identity itself as its peer. -/
theorem C2_amended (block : List String) (m : Msg)
    (h : parse_message_block block = .ok (some m)) :
    (m.role = "user" ∨ m.role = "assistant") ∧
    (m.role = "assistant" →
      ∃ b0 rest mt, block = b0 :: rest ∧
        reMatch TIMESTAMP_PATTERN (strip_invisible b0) = some mt ∧
        m.peer = pyStrip (capGroup mt 3) ∧ pyStrip (capGroup mt 3) ≠ USER_NAME) ∧
    (m.role = "user" → m.peer = USER_NAME) := by
  cases block with
  | nil => simp [parse_message_block] at h
  | cons b0 rest =>
    cases hmt : reMatch TIMESTAMP_PATTERN (strip_invisible b0) with
    | none => simp [parse_message_block, hmt] at h
    | some mt =>
      simp only [parse_message_block, hmt] at h
      by_cases hval : validHeaderDate (capGroup mt 1) (capGroup mt 2) = true
      · rw [if_pos hval] at h
        by_cases hempty :
            pyStrip (pySub SAFEGUARD_PATTERN ""
              (joinLines (filterBodyLines (capGroup mt 4 :: rest)))) = ""
        · rw [if_pos hempty] at h
          exact absurd h (by simp)
        · rw [if_neg hempty] at h
          by_cases hirr : is_irrelevant
              (pyStrip (pySub SAFEGUARD_PATTERN ""
                (joinLines (filterBodyLines (capGroup mt 4 :: rest))))) = true
          · rw [if_pos hirr] at h
            exact absurd h (by simp)
          · rw [if_neg hirr] at h
            injection h with h1
            injection h1 with h1
            subst h1
            by_cases hs : pyStrip (capGroup mt 3) = USER_NAME
            · refine ⟨Or.inl (by simp [hs]), fun hrole => ?_, fun _ => by simp [hs]⟩
              simp [hs] at hrole
            · refine ⟨Or.inr (by simp [hs]), fun _ => ?_, fun hrole => ?_⟩
              · exact ⟨b0, rest, mt, rfl, hmt, by simp [hs], hs⟩
              · simp [hs] at hrole
      · rw [if_neg hval] at h
        exact absurd h (by simp)

/-- C2, witness for the amended statement: an assistant message from Bob has
peer Bob, which differs from the self identity. -/
theorem C2_witness :
    Msg.peer ⟨"assistant", "hi there", "2024-03-05", "Bob"⟩ ≠ USER_NAME := by
  obtain ⟨-, ha, -⟩ :=
    C2_amended ["[05/03/2024, 14:22:10] Bob: hi there"]
      ⟨"assistant", "hi there", "2024-03-05", "Bob"⟩ rfl
  obtain ⟨b0, rest, mt, -, -, hpeer, hne⟩ := ha rfl
  rw [hpeer]
  exact hne

/-! ## Claim C8 (segmentation distributes over concatenation)

The proviso that neither file ends mid block is formalized as: the second line
list is empty or starts with a header line (a continuation line at the start
of the second file would mean the block of the first file continues into it). -/

/-- The segmentation loop only appends to the accumulated block list. -/
theorem segGo_acc (ls : List String) :
    ∀ blocks cur, segGo ls blocks cur = blocks ++ segGo ls [] cur := by
  induction ls with
  | nil =>
    intro blocks cur
    show (if cur.isEmpty then blocks else blocks ++ [cur]) =
      blocks ++ (if cur.isEmpty then [] else [] ++ [cur])
    by_cases hc : cur.isEmpty = true
    · rw [if_pos hc, if_pos hc]
      simp
    · rw [if_neg hc, if_neg hc]
      simp
  | cons l rest ih =>
    intro blocks cur
    show segGo (l :: rest) blocks cur = blocks ++ segGo (l :: rest) [] cur
    rw [segGo, segGo]
    by_cases hh : isHeaderLine l = true
    · rw [if_pos hh, if_pos hh]
      by_cases hc : cur.isEmpty = true
      · rw [if_pos hc, if_pos hc]
        rw [ih blocks [l]]
      · rw [if_neg hc, if_neg hc]
        rw [ih (blocks ++ [cur]) [l], ih ([] ++ [cur]) [l]]
        simp
    · rw [if_neg hh, if_neg hh]
      by_cases hc : cur.isEmpty = true
      · rw [if_pos hc, if_pos hc]
        exact ih blocks []
      · rw [if_neg hc, if_neg hc]
        exact ih blocks (cur ++ [l])

/-- C8: block segmentation distributes over file concatenation, provided the
second file does not start mid block (it is empty or starts with a header
line). -/
theorem C8_segmentation_concat (A B : List String)
    (hB : B = [] ∨ ∃ h t, B = h :: t ∧ isHeaderLine h = true) :
    message_blocks (A ++ B) = message_blocks A ++ message_blocks B := by
  rcases hB with hB | ⟨hl, tl, hB, hh⟩
  · subst hB
    simp [message_blocks, segGo]
  · subst hB
    unfold message_blocks
    have main : ∀ (A : List String) (blocks : List (List String)) (cur : List String),
        segGo (A ++ hl :: tl) blocks cur =
          segGo A blocks cur ++ segGo (hl :: tl) [] [] := by
      intro A
      induction A with
      | nil =>
        intro blocks cur
        simp only [List.nil_append]
        have lhs : segGo (hl :: tl) blocks cur =
            (if cur.isEmpty then blocks else blocks ++ [cur]) ++ segGo tl [] [hl] := by
          rw [segGo, if_pos hh]
          by_cases hc : cur.isEmpty = true
          · rw [if_pos hc]
            exact segGo_acc tl blocks [hl]
          · rw [if_neg hc]
            rw [segGo_acc tl (blocks ++ [cur]) [hl]]
        have rhs2 : segGo (hl :: tl) [] [] = segGo tl [] [hl] := by
          rw [segGo, if_pos hh]
          rfl
        rw [lhs, rhs2]
        rfl
      | cons l rest ih =>
        intro blocks cur
        simp only [List.cons_append]
        rw [segGo]
        conv_rhs => rw [segGo]
        by_cases hl' : isHeaderLine l = true
        · rw [if_pos hl', if_pos hl']
          exact ih _ _
        · rw [if_neg hl', if_neg hl']
          by_cases hc : cur.isEmpty = true
          · rw [if_pos hc, if_pos hc]
            exact ih _ _
          · rw [if_neg hc, if_neg hc]
            exact ih _ _
    exact main A [] []

/-- C8, witness at a concrete pair of files, the second starting with a header
line. -/
theorem C8_witness :
    message_blocks (["[05/03/2024, 14:22:10] Bob: hi", "cont"] ++
        ["[05/03/2024, 14:23:10] Iomar: yo", "tail"]) =
      message_blocks ["[05/03/2024, 14:22:10] Bob: hi", "cont"] ++
        message_blocks ["[05/03/2024, 14:23:10] Iomar: yo", "tail"] :=
  C8_segmentation_concat _ _
    (Or.inr ⟨"[05/03/2024, 14:23:10] Iomar: yo", ["tail"], rfl, by decide⟩)

/-! ## Characterizing the aggregation loop -/

/-- The accepted messages of a block list, in order. -/
def acceptedMsgs (blocks : List (List String)) : List Msg :=
  blocks.foldr
    (fun b acc =>
      match parse_message_block b with
      | .ok (some m) => m :: acc
      | _ => acc)
    []

/-- A successful block loop is the fold of stepAgg over the accepted messages. -/
theorem procBlocks_ok_foldl (blocks : List (List String)) :
    ∀ st st', procBlocks blocks st = .ok st' →
      st' = (acceptedMsgs blocks).foldl stepAgg st := by
  induction blocks with
  | nil =>
    intro st st' h
    simp only [procBlocks] at h
    injection h with h
    simp [acceptedMsgs, h]
  | cons b rest ih =>
    intro st st' h
    cases hp : parse_message_block b with
    | error e => rw [procBlocks, hp] at h; exact absurd h (by simp)
    | ok o =>
      cases o with
      | none =>
        rw [procBlocks, hp] at h
        have := ih st st' h
        simpa [acceptedMsgs, hp] using this
      | some m =>
        rw [procBlocks, hp] at h
        have := ih (stepAgg st m) st' h
        simpa [acceptedMsgs, hp] using this

/-- Every accepted message comes from some block that parses to it. -/
theorem mem_acceptedMsgs (blocks : List (List String)) (m : Msg)
    (hm : m ∈ acceptedMsgs blocks) :
    ∃ b ∈ blocks, parse_message_block b = .ok (some m) := by
  induction blocks with
  | nil => simp [acceptedMsgs] at hm
  | cons b rest ih =>
    cases hp : parse_message_block b with
    | error e =>
      simp only [acceptedMsgs, List.foldr_cons, hp] at hm
      obtain ⟨b', hb', h'⟩ := ih hm
      exact ⟨b', List.mem_cons_of_mem _ hb', h'⟩
    | ok o =>
      cases o with
      | none =>
        simp only [acceptedMsgs, List.foldr_cons, hp] at hm
        obtain ⟨b', hb', h'⟩ := ih hm
        exact ⟨b', List.mem_cons_of_mem _ hb', h'⟩
      | some m' =>
        simp only [acceptedMsgs, List.foldr_cons, hp] at hm
        rcases List.mem_cons.mp hm with hm' | hm'
        · exact ⟨b, List.mem_cons_self _ _, by rw [hp, hm']⟩
        · obtain ⟨b', hb', h'⟩ := ih hm'
          exact ⟨b', List.mem_cons_of_mem _ hb', h'⟩

/-- Association lookup after appending a fresh single pair. -/
theorem lookupAssoc_append_single {α : Type} (d k : String) (v : α)
    (l : List (String × α)) :
    lookupAssoc d (l ++ [(k, v)]) =
      match lookupAssoc d l with
      | some p => some p
      | none => if d = k then some v else none := by
  induction l with
  | nil =>
    by_cases hdk : d = k
    · simp [lookupAssoc, hdk]
    · simp only [List.nil_append, lookupAssoc]
      rw [if_neg (fun h : k = d => hdk h.symm), if_neg hdk]
  | cons e rest ih =>
    by_cases he : e.1 = d
    · simp [lookupAssoc, he]
    · simp only [List.cons_append, lookupAssoc, if_neg he]
      exact ih

/-- The peers_by_date table after the aggregation loop: the first seen
assistant message of each date gives the peer of that date. -/
theorem peersByDate_foldl (msgs : List Msg) :
    ∀ (st : AggSt) (d : String),
      lookupAssoc d ((msgs.foldl stepAgg st).peersByDate) =
        match lookupAssoc d st.peersByDate with
        | some p => some p
        | none => (msgs.find? fun m => m.role = "assistant" && m.date = d).map Msg.peer := by
  induction msgs with
  | nil =>
    intro st d
    simp only [List.foldl_nil, List.find?_nil]
    cases hq : lookupAssoc d st.peersByDate <;> simp
  | cons m rest ih =>
    intro st d
    simp only [List.foldl_cons]
    rw [ih]
    by_cases ha : m.role = "assistant"
    · by_cases hl : (lookupAssoc m.date st.peersByDate).isNone = true
      · have hpbd : (stepAgg st m).peersByDate = st.peersByDate ++ [(m.date, m.peer)] := by
          simp [stepAgg, ha, hl]
        rw [hpbd, lookupAssoc_append_single]
        by_cases hd : m.date = d
        · subst hd
          rw [List.find?_cons_of_pos _ (by simp [ha])]
          cases hq : lookupAssoc m.date st.peersByDate with
          | some q => simp
          | none => simp
        · rw [List.find?_cons_of_neg _ (by simp [hd])]
          rw [if_neg (fun h : d = m.date => hd h.symm)]
          cases hq : lookupAssoc d st.peersByDate <;> simp
      · have hpbd : (stepAgg st m).peersByDate = st.peersByDate := by
          simp [stepAgg, hl]
        rw [hpbd]
        by_cases hd : m.date = d
        · subst hd
          rw [List.find?_cons_of_pos _ (by simp [ha])]
          have hne : lookupAssoc m.date st.peersByDate ≠ none := by
            intro h
            rw [h] at hl
            exact hl rfl
          obtain ⟨q, hq⟩ := Option.ne_none_iff_exists'.mp hne
          rw [hq]
        · rw [List.find?_cons_of_neg _ (by simp [hd])]
    · have hpbd : (stepAgg st m).peersByDate = st.peersByDate := by
        simp [stepAgg, ha]
      rw [hpbd, List.find?_cons_of_neg _ (by simp [ha])]

/-- The resolved fallback peer after the aggregation loop: starting from a
falsy peer_name, it is the peer of the first assistant message with a non
empty peer, and Unknown when there is none. -/
theorem peerName_foldl (msgs : List Msg) :
    ∀ (st : AggSt),
      peerOrUnknown ((msgs.foldl stepAgg st).peerName) =
        if pyFalsy st.peerName = true then
          match msgs.find? (fun m => m.role = "assistant" && m.peer ≠ "") with
          | some m => m.peer
          | none => "Unknown"
        else peerOrUnknown st.peerName := by
  induction msgs with
  | nil =>
    intro st
    simp only [List.foldl_nil, List.find?_nil]
    by_cases hf : pyFalsy st.peerName = true
    · rw [if_pos hf]
      cases hpn : st.peerName with
      | none => rfl
      | some s =>
        have : s = "" := by
          rw [hpn] at hf
          simpa [pyFalsy] using hf
        simp [peerOrUnknown, this]
    · rw [if_neg hf]
  | cons m rest ih =>
    intro st
    simp only [List.foldl_cons]
    rw [ih]
    by_cases ha : m.role = "assistant"
    · by_cases hf : pyFalsy st.peerName = true
      · have hpn : (stepAgg st m).peerName = some m.peer := by
          simp [stepAgg, ha, hf]
        rw [hpn, if_pos hf]
        by_cases hp : m.peer = ""
        · rw [List.find?_cons_of_neg _ (by simp [hp])]
          rw [if_pos (by simp [pyFalsy, hp])]
        · rw [List.find?_cons_of_pos _ (by simp [ha, hp])]
          rw [if_neg (by simp [pyFalsy, hp])]
          simp [peerOrUnknown, hp]
      · have hpn : (stepAgg st m).peerName = st.peerName := by
          simp [stepAgg, hf]
        rw [hpn, if_neg hf, if_neg hf]
    · have hpn : (stepAgg st m).peerName = st.peerName := by
        simp [stepAgg, ha]
      rw [hpn, List.find?_cons_of_neg _ (by simp [ha])]

/-- Membership is preserved by sorted insertion. -/
theorem mem_insertByDate (x y : String × List DEntry) (l : List (String × List DEntry)) :
    y ∈ insertByDate x l ↔ y = x ∨ y ∈ l := by
  induction l with
  | nil => simp [insertByDate]
  | cons e rest ih =>
    by_cases hlt : strLt x.1.data e.1.data = true
    · simp [insertByDate, hlt]
    · simp only [insertByDate, if_neg hlt, List.mem_cons, ih]
      tauto

/-- Membership is preserved by the date sort. -/
theorem mem_sortByDate (y : String × List DEntry) (l : List (String × List DEntry)) :
    y ∈ sortByDate l ↔ y ∈ l := by
  induction l with
  | nil => simp [sortByDate]
  | cons e rest ih =>
    simp only [sortByDate, List.foldr_cons]
    rw [mem_insertByDate]
    simp only [List.mem_cons]
    rw [show sortByDate rest = rest.foldr insertByDate [] from rfl] at ih
    rw [ih]

/-- Every emitted record comes from an entry of the sorted daily table, and its
meta fields are computed from that entry. -/
theorem mem_mkRecords (st : AggSt) (r : ConvRecord) (hr : r ∈ mkRecords st) :
    ∃ kv, kv ∈ st.daily ∧ r.dialogue = kv.2 ∧ r.meta.date = kv.1 ∧
      r.meta.source = SOURCE ∧
      r.meta.peer =
        (match lookupAssoc kv.1 st.peersByDate with
         | some p => p
         | none => peerOrUnknown st.peerName) := by
  obtain ⟨kv, hkv, hkr⟩ := List.mem_map.mp hr
  exact ⟨kv, (mem_sortByDate kv st.daily).mp hkv, by rw [← hkr], by rw [← hkr],
    by rw [← hkr], by rw [← hkr]⟩

/-! ## Claim C7 (peer resolution tiers)

The per date tier matches the claim: the first seen assistant message of a
date resolves that date. The file wide fallback does not: the source guards
the update of peer_name with Python truthiness, so an assistant message whose
trimmed sender is empty does not stick, and the fallback is the first
assistant message with a non empty peer, or Unknown when there is none, not
the first seen assistant message. -/

/-- The peer the claim assigns to a date: the first seen assistant sender of
the date, else the file wide first seen assistant sender, else Unknown.
Stated from the words of the claim, to be compared with the source. -/
def claimPeerC7 (msgs : List Msg) (d : String) : String :=
  match msgs.find? (fun m => m.role = "assistant" && m.date = d) with
  | some m => m.peer
  | none =>
    match msgs.find? (fun m => m.role = "assistant") with
    | some m => m.peer
    | none => "Unknown"

/-- The peer the source actually assigns to a date: the first seen assistant
sender of the date, else the first assistant sender with a non empty trimmed
name, else Unknown. -/
def amendedPeerC7 (msgs : List Msg) (d : String) : String :=
  match msgs.find? (fun m => m.role = "assistant" && m.date = d) with
  | some m => m.peer
  | none =>
    match msgs.find? (fun m => m.role = "assistant" && m.peer ≠ "") with
    | some m => m.peer
    | none => "Unknown"

/-- C7, counterexample: a file whose only assistant message has an all space
sender (trimmed peer empty) on the first date, and a user message on a second
date. The claim formula resolves the second date to the empty first seen
assistant peer, but the emitted record carries Unknown. -/
theorem C7_counterexample :
    process_chat_file ["[05/03/2024, 14:22:10]  : hello",
                       "[06/03/2024, 10:00:00] Iomar: hello"] =
      .ok ([⟨[⟨"assistant", "hello"⟩], ⟨"whatsapp", "2024-03-05", ""⟩⟩,
            ⟨[⟨"user", "hello"⟩], ⟨"whatsapp", "2024-03-06", "Unknown"⟩⟩], "Unknown") ∧
    claimPeerC7
      (acceptedMsgs (message_blocks ["[05/03/2024, 14:22:10]  : hello",
                                     "[06/03/2024, 10:00:00] Iomar: hello"]))
      "2024-03-06" = "" ∧
    ("Unknown" : String) ≠ "" :=
  ⟨rfl, rfl, by decide⟩

/-- C7, amended: the peer of every emitted record is the first seen assistant
peer of the record date when the date has one, otherwise the peer of the first
assistant message with a non empty trimmed sender, otherwise Unknown. -/
theorem C7_amended (lines : List String) (recs : List ConvRecord) (pn : String)
    (h : process_chat_file lines = .ok (recs, pn)) (r : ConvRecord) (hr : r ∈ recs) :
    r.meta.peer = amendedPeerC7 (acceptedMsgs (message_blocks lines)) r.meta.date := by
  cases hpb : procBlocks (message_blocks lines) ⟨[], [], none⟩ with
  | error e =>
    rw [process_chat_file, hpb] at h
    exact absurd h (by simp [Except.map])
  | ok st =>
    rw [process_chat_file, hpb] at h
    have hrecs : recs = mkRecords st := by
      simp only [Except.map] at h
      injection h with h1
      exact (congrArg Prod.fst h1).symm
    have hst := procBlocks_ok_foldl (message_blocks lines) _ _ hpb
    obtain ⟨kv, hkv, hdia, hdate, hsrc, hpeer⟩ :=
      mem_mkRecords st r (hrecs ▸ hr)
    rw [hpeer, hdate]
    subst hst
    rw [peersByDate_foldl, peerName_foldl]
    simp only [lookupAssoc]
    cases hf : List.find? (fun m => m.role = "assistant" && m.date = kv.1)
        (acceptedMsgs (message_blocks lines)) with
    | some m => simp [amendedPeerC7, hf]
    | none => simp [amendedPeerC7, hf, pyFalsy]

/-- C7, witness for the amended statement: the second record of the concrete
two day file resolves to Unknown, as the amended formula prescribes. -/
theorem C7_witness :
    Meta.peer (ConvRecord.meta ⟨[⟨"user", "hello"⟩], ⟨"whatsapp", "2024-03-06", "Unknown"⟩⟩) =
      amendedPeerC7
        (acceptedMsgs (message_blocks ["[05/03/2024, 14:22:10]  : hello",
                                       "[06/03/2024, 10:00:00] Iomar: hello"]))
        (Meta.date
          (ConvRecord.meta ⟨[⟨"user", "hello"⟩], ⟨"whatsapp", "2024-03-06", "Unknown"⟩⟩)) :=
  C7_amended ["[05/03/2024, 14:22:10]  : hello", "[06/03/2024, 10:00:00] Iomar: hello"]
    [⟨[⟨"assistant", "hello"⟩], ⟨"whatsapp", "2024-03-05", ""⟩⟩,
     ⟨[⟨"user", "hello"⟩], ⟨"whatsapp", "2024-03-06", "Unknown"⟩⟩] "Unknown"
    C7_counterexample.1
    ⟨[⟨"user", "hello"⟩], ⟨"whatsapp", "2024-03-06", "Unknown"⟩⟩ (by simp)

/-! ## Claim C10 (non empty texts and dialogues) -/

/-- Every message accepted by parse_message_block has non empty text. -/
theorem parse_text_nonempty (block : List String) (m : Msg)
    (h : parse_message_block block = .ok (some m)) : m.text ≠ "" := by
  cases block with
  | nil => simp [parse_message_block] at h
  | cons b0 rest =>
    cases hmt : reMatch TIMESTAMP_PATTERN (strip_invisible b0) with
    | none => simp [parse_message_block, hmt] at h
    | some mt =>
      simp only [parse_message_block, hmt] at h
      by_cases hval : validHeaderDate (capGroup mt 1) (capGroup mt 2) = true
      · rw [if_pos hval] at h
        by_cases hempty :
            pyStrip (pySub SAFEGUARD_PATTERN ""
              (joinLines (filterBodyLines (capGroup mt 4 :: rest)))) = ""
        · rw [if_pos hempty] at h
          exact absurd h (by simp)
        · rw [if_neg hempty] at h
          by_cases hirr : is_irrelevant
              (pyStrip (pySub SAFEGUARD_PATTERN ""
                (joinLines (filterBodyLines (capGroup mt 4 :: rest))))) = true
          · rw [if_pos hirr] at h
            exact absurd h (by simp)
          · rw [if_neg hirr] at h
            have h2 : m.text =
                pyStrip (pySub SAFEGUARD_PATTERN ""
                  (joinLines (filterBodyLines (capGroup mt 4 :: rest)))) :=
              (congrArg
                (fun x : Except String (Option Msg) =>
                  match x with
                  | .ok (some mm) => mm.text
                  | _ => "") h).symm
            rw [h2]
            exact hempty
      · rw [if_neg hval] at h
        exact absurd h (by simp)

/-- The daily table invariant is preserved by one defaultdict append. -/
theorem appendAssoc_inv (k : String) (v : DEntry) (hv : v.text ≠ "")
    (l : List (String × List DEntry))
    (hl : ∀ kv ∈ l, kv.2 ≠ [] ∧ ∀ e ∈ kv.2, e.text ≠ "") :
    ∀ kv ∈ appendAssoc k v l, kv.2 ≠ [] ∧ ∀ e ∈ kv.2, e.text ≠ "" := by
  induction l with
  | nil =>
    intro kv hkv
    simp only [appendAssoc, List.mem_singleton] at hkv
    subst hkv
    refine ⟨by simp, fun e he => ?_⟩
    simp only [List.mem_singleton] at he
    subst he
    exact hv
  | cons x rest ih =>
    intro kv hkv
    by_cases hx : x.1 = k
    · simp only [appendAssoc, if_pos hx, List.mem_cons] at hkv
      rcases hkv with hkv | hkv
      · subst hkv
        obtain ⟨hne, htx⟩ := hl x (List.mem_cons_self _ _)
        refine ⟨by simp, fun e he => ?_⟩
        rcases List.mem_append.mp he with he | he
        · exact htx e he
        · simp only [List.mem_singleton] at he
          subst he
          exact hv
      · exact hl kv (List.mem_cons_of_mem _ hkv)
    · simp only [appendAssoc, if_neg hx, List.mem_cons] at hkv
      rcases hkv with hkv | hkv
      · subst hkv
        exact hl kv (List.mem_cons_self _ _)
      · exact ih (fun kv' hkv' => hl kv' (List.mem_cons_of_mem _ hkv')) kv hkv

/-- The daily table invariant holds after folding accepted messages with non
empty texts. -/
theorem daily_foldl_inv (msgs : List Msg) :
    (∀ m ∈ msgs, m.text ≠ "") →
    ∀ st : AggSt, (∀ kv ∈ st.daily, kv.2 ≠ [] ∧ ∀ e ∈ kv.2, e.text ≠ "") →
      ∀ kv ∈ (msgs.foldl stepAgg st).daily, kv.2 ≠ [] ∧ ∀ e ∈ kv.2, e.text ≠ "" := by
  induction msgs with
  | nil => intro _ st hst; simpa using hst
  | cons m rest ih =>
    intro hm st hst
    simp only [List.foldl_cons]
    refine ih (fun m' hm' => hm m' (List.mem_cons_of_mem _ hm')) (stepAgg st m) ?_
    have hd : (stepAgg st m).daily = appendAssoc m.date ⟨m.role, m.text⟩ st.daily := rfl
    rw [hd]
    exact appendAssoc_inv m.date ⟨m.role, m.text⟩ (hm m (List.mem_cons_self _ _)) st.daily hst

/-- C10: every accepted message has non empty text, and every emitted record
has a non empty dialogue all of whose entries have non empty text. -/
theorem C10_nonempty_text :
    (∀ (block : List String) (m : Msg),
      parse_message_block block = .ok (some m) → m.text ≠ "") ∧
    (∀ (lines : List String) (recs : List ConvRecord) (pn : String),
      process_chat_file lines = .ok (recs, pn) →
      ∀ r ∈ recs, r.dialogue ≠ [] ∧ ∀ e ∈ r.dialogue, e.text ≠ "") := by
  refine ⟨parse_text_nonempty, fun lines recs pn h r hr => ?_⟩
  cases hpb : procBlocks (message_blocks lines) ⟨[], [], none⟩ with
  | error e =>
    rw [process_chat_file, hpb] at h
    exact absurd h (by simp [Except.map])
  | ok st =>
    rw [process_chat_file, hpb] at h
    have hrecs : recs = mkRecords st := by
      simp only [Except.map] at h
      injection h with h1
      exact (congrArg Prod.fst h1).symm
    have hst := procBlocks_ok_foldl (message_blocks lines) _ _ hpb
    obtain ⟨kv, hkv, hdia, hdate, hsrc, hpeer⟩ := mem_mkRecords st r (hrecs ▸ hr)
    have hmsgs : ∀ m ∈ acceptedMsgs (message_blocks lines), m.text ≠ "" := by
      intro m hm
      obtain ⟨b, hb, hbp⟩ := mem_acceptedMsgs _ _ hm
      exact parse_text_nonempty b m hbp
    have hinv := daily_foldl_inv (acceptedMsgs (message_blocks lines)) hmsgs
      ⟨[], [], none⟩ (by simp)
    rw [hst] at hkv
    obtain ⟨hne, htx⟩ := hinv kv hkv
    rw [hdia]
    exact ⟨hne, htx⟩

/-- C10, witness: the accepted message of a concrete block has non empty text. -/
theorem C10_witness : Msg.text ⟨"user", "hello there", "2024-03-05", "Iomar"⟩ ≠ "" :=
  C10_nonempty_text.1 ["[05/03/2024, 14:22:10] Iomar: hello there"]
    ⟨"user", "hello there", "2024-03-05", "Iomar"⟩ rfl

/-! ## Claim C6, amended part

For a non empty remainder all of whose characters lie in the class [\W\s], the
greedy repetition of EMOJI_ONLY_PATTERN consumes the entire remainder, so
re.fullmatch succeeds and is_irrelevant returns true; the empty remainder of
an emoji only message is the single failing case. -/

/-- Completeness of the matcher for an unbounded greedy class repetition with
a zero lower bound: a string all of whose characters satisfy the class is one
of the produced matches. -/
theorem rep_cls_complete0 (q : Char → Bool) :
    ∀ (s : List Char) (fuel : Nat) (prev : Option Char),
      s.all q = true → s.length + 1 ≤ fuel →
      (s, ([] : Caps)) ∈ mrun fuel (.rep (.cls q) 0 none true) prev s := by
  intro s
  induction s with
  | nil =>
    intro fuel prev _ hfuel
    obtain ⟨f, rfl⟩ : ∃ f, fuel = f + 1 := ⟨fuel - 1, by omega⟩
    simp [mrun]
  | cons c cs ih =>
    intro fuel prev hall hfuel
    simp only [List.length_cons] at hfuel
    obtain ⟨f2, rfl⟩ : ∃ f2, fuel = f2 + 2 := ⟨fuel - 2, by omega⟩
    simp only [List.all_cons, Bool.and_eq_true] at hall
    obtain ⟨hq, hcs⟩ := hall
    have hbody : mrun (f2 + 1) (.cls q) prev (c :: cs) = [([c], [])] := by
      simp [mrun, hq]
    have hrec : (cs, ([] : Caps)) ∈
        mrun (f2 + 1) (.rep (.cls q) 0 none true) (lastOpt [c] prev) cs := by
      apply ih
      · exact hcs
      · omega
    show (c :: cs, ([] : Caps)) ∈
      ((mrun (f2 + 1) (.cls q) prev (c :: cs)).flatMap fun r1 =>
        if r1.1.isEmpty then []
        else
          (mrun (f2 + 1) (.rep (.cls q) 0 none true)
              (lastOpt r1.1 prev) ((c :: cs).drop r1.1.length)).map
            fun r2 => (r1.1 ++ r2.1, r1.2 ++ r2.2)) ++ [(([] : List Char), ([] : Caps))]
    rw [hbody]
    apply List.mem_append_left
    simp only [List.flatMap_cons, List.flatMap_nil, List.append_nil]
    rw [if_neg (by simp)]
    exact List.mem_map.mpr ⟨(cs, []), hrec, rfl⟩

/-- Completeness of the matcher for the plus of a class: a non empty string
all of whose characters satisfy the class is one of the produced matches. -/
theorem rep_cls_complete1 (q : Char → Bool) (s : List Char) (fuel : Nat)
    (prev : Option Char) (hne : s ≠ []) (hall : s.all q = true)
    (hfuel : s.length + 1 ≤ fuel) :
    (s, ([] : Caps)) ∈ mrun fuel (.rep (.cls q) 1 none true) prev s := by
  cases s with
  | nil => exact absurd rfl hne
  | cons c cs =>
    simp only [List.length_cons] at hfuel
    obtain ⟨f2, rfl⟩ : ∃ f2, fuel = f2 + 2 := ⟨fuel - 2, by omega⟩
    simp only [List.all_cons, Bool.and_eq_true] at hall
    obtain ⟨hq, hcs⟩ := hall
    have hbody : mrun (f2 + 1) (.cls q) prev (c :: cs) = [([c], [])] := by
      simp [mrun, hq]
    have hrec : (cs, ([] : Caps)) ∈
        mrun (f2 + 1) (.rep (.cls q) 0 none true) (lastOpt [c] prev) cs := by
      apply rep_cls_complete0
      · exact hcs
      · omega
    show (c :: cs, ([] : Caps)) ∈
      ((mrun (f2 + 1) (.cls q) prev (c :: cs)).flatMap fun r1 =>
        if r1.1.isEmpty then []
        else
          (mrun (f2 + 1) (.rep (.cls q) 0 none true)
              (lastOpt r1.1 prev) ((c :: cs).drop r1.1.length)).map
            fun r2 => (r1.1 ++ r2.1, r1.2 ++ r2.2)) ++ ([] : List (List Char × Caps))
    rw [hbody]
    apply List.mem_append_left
    simp only [List.flatMap_cons, List.flatMap_nil, List.append_nil]
    rw [if_neg (by simp)]
    exact List.mem_map.mpr ⟨(cs, []), hrec, rfl⟩

/-- Completeness of re.fullmatch for EMOJI_ONLY_PATTERN: a non empty string of
non word or whitespace characters matches fully. -/
theorem emoji_only_fullmatch (s : String) (hne : s.data ≠ [])
    (hall : s.data.all (fun c => !isWordC c || isPySpace c) = true) :
    reFullmatchB EMOJI_ONLY_PATTERN s = true := by
  have hF : bigFuel s.data = 2 * s.data.length + 97 + 3 := by
    unfold bigFuel
    omega
  have hmem : (s.data, ([] : Caps)) ∈
      mrun (bigFuel s.data) EMOJI_ONLY_PATTERN none s.data := by
    rw [hF]
    show (s.data, ([] : Caps)) ∈
      (mrun (2 * s.data.length + 97 + 2) .bol none s.data).flatMap fun r1 =>
        (mrun (2 * s.data.length + 97 + 2)
            (.seq (.rep (.cls fun c => !isWordC c || isPySpace c) 1 none true)
              (.seq .eol .eps))
            (lastOpt r1.1 none) (s.data.drop r1.1.length)).map
          fun r2 => (r1.1 ++ r2.1, r1.2 ++ r2.2)
    apply List.mem_flatMap.mpr
    refine ⟨([], []), by simp [mrun], ?_⟩
    apply List.mem_map.mpr
    refine ⟨(s.data, []), ?_, by simp⟩
    show (s.data, ([] : Caps)) ∈
      (mrun (2 * s.data.length + 97 + 1)
          (.rep (.cls fun c => !isWordC c || isPySpace c) 1 none true)
          (lastOpt [] none) s.data).flatMap fun r1 =>
        (mrun (2 * s.data.length + 97 + 1) (.seq .eol .eps)
            (lastOpt r1.1 (lastOpt [] none)) (s.data.drop r1.1.length)).map
          fun r2 => (r1.1 ++ r2.1, r1.2 ++ r2.2)
    apply List.mem_flatMap.mpr
    refine ⟨(s.data, []), ?_, ?_⟩
    · exact rep_cls_complete1 _ s.data _ _ hne hall (by omega)
    · apply List.mem_map.mpr
      refine ⟨([], []), ?_, by simp⟩
      rw [List.drop_length]
      show (([] : List Char), ([] : Caps)) ∈
        (mrun (2 * s.data.length + 97) .eol
            (lastOpt s.data (lastOpt [] none)) ([] : List Char)).flatMap fun r1 =>
          (mrun (2 * s.data.length + 97) .eps
              (lastOpt r1.1 (lastOpt s.data (lastOpt [] none)))
              (([] : List Char).drop r1.1.length)).map
            fun r2 => (r1.1 ++ r2.1, r1.2 ++ r2.2)
      have h97 : 2 * s.data.length + 97 = 2 * s.data.length + 96 + 1 := by omega
      rw [h97]
      apply List.mem_flatMap.mpr
      refine ⟨([], []), by simp [mrun], ?_⟩
      apply List.mem_map.mpr
      exact ⟨([], []), by simp [mrun], rfl⟩
  apply List.any_eq_true.mpr
  exact ⟨(s.data, []), hmem, by simp⟩

/-- C6, amended: a message text whose remainder after stripping and emoji
removal is non empty and consists only of non word or whitespace characters is
classified irrelevant; a message of emoji only has an empty remainder, which
the filter pattern does not match, and such a message is instead discarded by
parse_message_block as empty after cleaning. -/
theorem C6_amended :
    (∀ t : String,
      remove_emojis (pyStrip t) ≠ "" →
      (remove_emojis (pyStrip t)).data.all (fun c => !isWordC c || isPySpace c) = true →
      is_irrelevant t = true) ∧
    parse_message_block ["[05/03/2024, 14:22:10] Bob: 😀😀"] = .ok none := by
  refine ⟨fun t hne hall => ?_, rfl⟩
  have hdne : (remove_emojis (pyStrip t)).data ≠ [] := by
    intro hd
    apply hne
    cases hrem : remove_emojis (pyStrip t) with
    | mk data => rw [hrem] at hd; simp at hd; rw [hd]
  have hfm := emoji_only_fullmatch (remove_emojis (pyStrip t)) hdne hall
  simp [is_irrelevant, hfm]

/-- C6, witness for the amended statement: a punctuation only text is
classified irrelevant. -/
theorem C6_witness : is_irrelevant " .,!" = true :=
  C6_amended.1 " .,!" (by decide) (by decide)

/-! ## Claim C9: soundness toolkit for non matching

The sanitizer is idempotent on placeholder only text because none of the
patterns of clean_message matches anywhere in such text. Non matching is
derived from soundness properties of the matcher: every reported match
consumes a prefix of the input, and each pattern imposes requirements on the
consumed characters that no placeholder text position can satisfy. -/

/-- The consumed characters of any match form a prefix of the input. -/
theorem mrun_consumed :
    ∀ (fuel : Nat) (r : RE) (prev : Option Char) (s : List Char)
      (res : List Char × Caps), res ∈ mrun fuel r prev s → ∃ t, s = res.1 ++ t := by
  intro fuel
  induction fuel with
  | zero => intro r prev s res h; simp [mrun] at h
  | succ f ih =>
    intro r prev s res h
    cases r with
    | eps =>
      simp only [mrun, List.mem_singleton] at h
      subst h
      exact ⟨s, rfl⟩
    | cls p =>
      cases s with
      | nil => simp [mrun] at h
      | cons c cs =>
        simp only [mrun] at h
        by_cases hp : p c = true
        · rw [if_pos hp] at h
          simp only [List.mem_singleton] at h
          subst h
          exact ⟨cs, rfl⟩
        · rw [if_neg hp] at h
          simp at h
    | seq a b =>
      simp only [mrun, List.mem_flatMap, List.mem_map] at h
      obtain ⟨r1, h1, r2, h2, heq⟩ := h
      obtain ⟨t1, ht1⟩ := ih a prev s r1 h1
      obtain ⟨t2, ht2⟩ := ih b (lastOpt r1.1 prev) (s.drop r1.1.length) r2 h2
      rw [ht1, List.drop_left] at ht2
      refine ⟨t2, ?_⟩
      rw [← heq]
      simp only [ht1, ht2]
      simp [List.append_assoc]
    | alt a b =>
      simp only [mrun, List.mem_append] at h
      rcases h with h | h
      · exact ih a prev s res h
      · exact ih b prev s res h
    | rep a lo hi g =>
      have hmore : ∀ res2 : List Char × Caps,
          res2 ∈ (if hi = some 0 then []
            else
              (mrun f a prev s).flatMap fun r1 =>
                if r1.1.isEmpty then []
                else
                  (mrun f (.rep a (lo - 1) (hi.map (fun h => h - 1)) g)
                      (lastOpt r1.1 prev) (s.drop r1.1.length)).map
                    fun r2 => (r1.1 ++ r2.1, r1.2 ++ r2.2)) →
          ∃ t, s = res2.1 ++ t := by
        intro res2 h2
        by_cases hh : hi = some 0
        · rw [if_pos hh] at h2
          simp at h2
        · rw [if_neg hh] at h2
          simp only [List.mem_flatMap] at h2
          obtain ⟨r1, h1, hif⟩ := h2
          by_cases he : r1.1.isEmpty = true
          · rw [if_pos he] at hif
            simp at hif
          · rw [if_neg he] at hif
            simp only [List.mem_map] at hif
            obtain ⟨r2, hr2, heq⟩ := hif
            obtain ⟨t1, ht1⟩ := ih a prev s r1 h1
            obtain ⟨t2, ht2⟩ := ih _ (lastOpt r1.1 prev) (s.drop r1.1.length) r2 hr2
            rw [ht1, List.drop_left] at ht2
            refine ⟨t2, ?_⟩
            rw [← heq]
            simp only [ht1, ht2]
            simp [List.append_assoc]
      have hstop : ∀ res2 : List Char × Caps,
          res2 ∈ (if lo = 0 then [(([] : List Char), ([] : Caps))] else []) →
          ∃ t, s = res2.1 ++ t := by
        intro res2 h2
        by_cases hl : lo = 0
        · rw [if_pos hl] at h2
          simp only [List.mem_singleton] at h2
          subst h2
          exact ⟨s, rfl⟩
        · rw [if_neg hl] at h2
          simp at h2
      simp only [mrun] at h
      cases g with
      | true =>
        rw [if_pos rfl] at h
        rcases List.mem_append.mp h with h | h
        · exact hmore res h
        · exact hstop res h
      | false =>
        rw [if_neg (by simp)] at h
        rcases List.mem_append.mp h with h | h
        · exact hstop res h
        · exact hmore res h
    | wordB =>
      simp only [mrun] at h
      by_cases hb : (isWordOpt prev != hdWord s) = true
      · rw [if_pos hb] at h
        simp only [List.mem_singleton] at h
        subst h
        exact ⟨s, rfl⟩
      · rw [if_neg hb] at h
        simp at h
    | bol =>
      simp only [mrun] at h
      by_cases hb : prev.isNone = true
      · rw [if_pos hb] at h
        simp only [List.mem_singleton] at h
        subst h
        exact ⟨s, rfl⟩
      · rw [if_neg hb] at h
        simp at h
    | eol =>
      simp only [mrun] at h
      by_cases hb : (s = [] || s = ['\n']) = true
      · rw [if_pos hb] at h
        simp only [List.mem_singleton] at h
        subst h
        exact ⟨s, rfl⟩
      · rw [if_neg hb] at h
        simp at h
    | grp n a =>
      simp only [mrun, List.mem_map] at h
      obtain ⟨r1, h1, heq⟩ := h
      obtain ⟨t1, ht1⟩ := ih a prev s r1 h1
      refine ⟨t1, ?_⟩
      rw [← heq]
      exact ht1

/-- A syntactic witness that every match of a pattern must consume at least
one character satisfying a predicate. -/
inductive Req (p : Char → Bool) : RE → Prop
  | cls (q : Char → Bool) (h : ∀ c, q c = true → p c = true) : Req p (.cls q)
  | seqL (a b : RE) (ha : Req p a) : Req p (.seq a b)
  | seqR (a b : RE) (hb : Req p b) : Req p (.seq a b)
  | alt (a b : RE) (ha : Req p a) (hb : Req p b) : Req p (.alt a b)
  | rep (a : RE) (lo : Nat) (hi : Option Nat) (g : Bool) (hlo : 1 ≤ lo)
      (ha : Req p a) : Req p (.rep a lo hi g)
  | grp (n : Nat) (a : RE) (ha : Req p a) : Req p (.grp n a)

/-- Soundness of Req: every reported match contains a required character. -/
theorem req_sound :
    ∀ (fuel : Nat) (p : Char → Bool) (r : RE), Req p r →
      ∀ (prev : Option Char) (s : List Char) (res : List Char × Caps),
        res ∈ mrun fuel r prev s → ∃ c ∈ res.1, p c = true := by
  intro fuel
  induction fuel with
  | zero => intro p r _ prev s res h; simp [mrun] at h
  | succ f ih =>
    intro p r hreq prev s res h
    cases hreq with
    | cls q hq =>
      cases s with
      | nil => simp [mrun] at h
      | cons c cs =>
        simp only [mrun] at h
        by_cases hp : q c = true
        · rw [if_pos hp] at h
          simp only [List.mem_singleton] at h
          subst h
          exact ⟨c, by simp, hq c hp⟩
        · rw [if_neg hp] at h
          simp at h
    | seqL a b ha =>
      simp only [mrun, List.mem_flatMap, List.mem_map] at h
      obtain ⟨r1, h1, r2, h2, heq⟩ := h
      obtain ⟨c, hc, hpc⟩ := ih p a ha prev s r1 h1
      refine ⟨c, ?_, hpc⟩
      rw [← heq]
      exact List.mem_append_left _ hc
    | seqR a b hb =>
      simp only [mrun, List.mem_flatMap, List.mem_map] at h
      obtain ⟨r1, h1, r2, h2, heq⟩ := h
      obtain ⟨c, hc, hpc⟩ := ih p b hb _ _ r2 h2
      refine ⟨c, ?_, hpc⟩
      rw [← heq]
      exact List.mem_append_right _ hc
    | alt a b ha hb =>
      simp only [mrun, List.mem_append] at h
      rcases h with h | h
      · exact ih p a ha prev s res h
      · exact ih p b hb prev s res h
    | rep a lo hi g hlo ha =>
      have hmore : ∀ res2 : List Char × Caps,
          res2 ∈ (if hi = some 0 then []
            else
              (mrun f a prev s).flatMap fun r1 =>
                if r1.1.isEmpty then []
                else
                  (mrun f (.rep a (lo - 1) (hi.map (fun h => h - 1)) g)
                      (lastOpt r1.1 prev) (s.drop r1.1.length)).map
                    fun r2 => (r1.1 ++ r2.1, r1.2 ++ r2.2)) →
          ∃ c ∈ res2.1, p c = true := by
        intro res2 h2
        by_cases hh : hi = some 0
        · rw [if_pos hh] at h2
          simp at h2
        · rw [if_neg hh] at h2
          simp only [List.mem_flatMap] at h2
          obtain ⟨r1, h1, hif⟩ := h2
          by_cases he : r1.1.isEmpty = true
          · rw [if_pos he] at hif
            simp at hif
          · rw [if_neg he] at hif
            simp only [List.mem_map] at hif
            obtain ⟨r2, hr2, heq⟩ := hif
            obtain ⟨c, hc, hpc⟩ := ih p a ha prev s r1 h1
            refine ⟨c, ?_, hpc⟩
            rw [← heq]
            exact List.mem_append_left _ hc
      simp only [mrun] at h
      have hstop : (if lo = 0 then [(([] : List Char), ([] : Caps))] else []) = [] := by
        rw [if_neg (by omega)]
      cases g with
      | true =>
        rw [if_pos rfl, hstop, List.append_nil] at h
        exact hmore res h
      | false =>
        rw [if_neg (by simp), hstop, List.nil_append] at h
        exact hmore res h
    | grp n a ha =>
      simp only [mrun, List.mem_map] at h
      obtain ⟨r1, h1, heq⟩ := h
      obtain ⟨c, hc, hpc⟩ := ih p a ha prev s r1 h1
      refine ⟨c, ?_, hpc⟩
      rw [← heq]
      exact hc

/-- A pattern with a Req witness matches nowhere in a string without a
required character. -/
theorem mrun_nil_of_req (p : Char → Bool) (r : RE) (hreq : Req p r)
    (fuel : Nat) (prev : Option Char) (s : List Char)
    (hs : ∀ c ∈ s, p c = false) : mrun fuel r prev s = [] := by
  apply List.eq_nil_iff_forall_not_mem.mpr
  intro res hres
  obtain ⟨c, hc, hpc⟩ := req_sound fuel p r hreq prev s res hres
  obtain ⟨t, ht⟩ := mrun_consumed fuel r prev s res hres
  have hcs : c ∈ s := by
    rw [ht]
    exact List.mem_append_left _ hc
  rw [hs c hcs] at hpc
  exact absurd hpc (by simp)

/-- The scanning pass leaves a string unchanged when the pattern matches at no
position of it. -/
theorem subGo_id (r : RE) (repl : List Char) (s0 : List Char)
    (H : ∀ (prev : Option Char) (s' : List Char), s' <:+ s0 →
      mrun (bigFuel s') r prev s' = []) :
    ∀ (fuel : Nat) (prev : Option Char) (s : List Char), s <:+ s0 →
      subGo r repl fuel prev s = s := by
  intro fuel
  induction fuel with
  | zero => intro prev s _; rfl
  | succ f ih =>
    intro prev s hs
    have hm : (mrun (bigFuel s) r prev s).head? = none := by
      rw [H prev s hs]
      rfl
    cases s with
    | nil => simp only [subGo, hm]
    | cons c rest =>
      simp only [subGo, hm]
      rw [ih (some c) rest ((List.suffix_cons c rest).trans hs)]

/-- re.sub leaves a string unchanged when the pattern matches at no position. -/
theorem pySub_id (r : RE) (repl : String) (s : String)
    (H : ∀ (prev : Option Char) (s' : List Char), s' <:+ s.data →
      mrun (bigFuel s') r prev s' = []) : pySub r repl s = s := by
  unfold pySub
  rw [subGo_id r repl.data s.data H _ none s.data (List.suffix_refl s.data)]

/-! ## Placeholder only text -/

/-- The six redaction placeholder tokens produced by clean_message. -/
def REDACTED_TOKENS : List (List Char) :=
  ["[REDACTED_IBAN]".data, "[REDACTED_RIB]".data, "[REDACTED_CARD]".data,
   "[REDACTED_PHONE]".data, "[REDACTED_EMAIL]".data, "[REDACTED_BIC]".data]

/-- Text containing only redaction placeholders and interleaving whitespace:
a placeholder token, possibly followed by whitespace and more such text. -/
inductive PlaceholderText : List Char → Prop
  | tok (t : List Char) (ht : t ∈ REDACTED_TOKENS) : PlaceholderText t
  | app (t : List Char) (ht : t ∈ REDACTED_TOKENS) (w : List Char)
      (hw : w.all isPySpace = true) (r : List Char) (hr : PlaceholderText r) :
      PlaceholderText (t ++ w ++ r)

/-- The characters occurring in placeholder only text: upper case letters,
brackets, the underscore and whitespace. -/
def phChar (c : Char) : Bool :=
  isUpperAZ c || c.toNat = 0x5B || c.toNat = 0x5D || c.toNat = 0x5F || isPySpace c

/-- All characters of a placeholder token are placeholder characters. -/
theorem tok_chars (t : List Char) (ht : t ∈ REDACTED_TOKENS) :
    ∀ c ∈ t, phChar c = true := by
  simp only [REDACTED_TOKENS, List.mem_cons, List.mem_singleton,
    List.not_mem_nil, or_false] at ht
  rcases ht with h | h | h | h | h | h <;> subst h <;> decide

theorem ph_chars (s : List Char) (hph : PlaceholderText s) :
    ∀ c ∈ s, phChar c = true := by
  induction hph with
  | tok t ht => exact tok_chars t ht
  | app t ht w hw r hr ih =>
    intro c hc
    rcases List.mem_append.mp hc with hc | hc
    · rcases List.mem_append.mp hc with hc | hc
      · exact tok_chars t ht c hc
      · have := List.all_eq_true.mp hw c hc
        simp [phChar, this]
    · exact ih c hc

/-! ## Req witnesses for the patterns with a mandatory character -/

theorem req_emoji : Req emojiChar EMOJI_PATTERN :=
  Req.rep _ _ _ _ (by omega) (Req.cls _ (fun _ h => h))

theorem req_link : Req (fun c => c = 'h') LINK_PATTERN :=
  Req.seqL _ _ (Req.seqL _ _ (Req.cls _ (fun _ h => h)))

theorem req_edited : Req (fun c => c.toLower = '<'.toLower) EDITED_PATTERN :=
  Req.seqL _ _ (Req.cls _ (fun _ h => h))

theorem req_iban : Req isDigitC IBAN_PATTERN :=
  Req.seqR _ _ (Req.seqR _ _ (Req.seqL _ _
    (Req.rep _ _ _ _ (by omega) (Req.cls _ (fun _ h => h)))))

theorem req_card : Req isDigitC CREDIT_CARD_PATTERN :=
  Req.seqR _ _ (Req.seqR _ _ (Req.seqL _ _ (Req.cls _ (fun _ h => h))))

theorem req_phone : Req isDigitC PHONE_PATTERN :=
  Req.seqR _ _ (Req.seqR _ _ (Req.seqR _ _ (Req.seqL _ _
    (Req.rep _ _ _ _ (by omega) (Req.cls _ (fun _ h => h))))))

theorem req_email : Req (fun c => c = '@') EMAIL_PATTERN :=
  Req.seqR _ _ (Req.seqL _ _ (Req.cls _ (fun _ h => h)))

/-! ## Placeholder characters never satisfy those requirements -/

theorem toLower_toNat (c : Char) :
    (Char.toLower c).toNat =
      if 65 ≤ c.toNat ∧ c.toNat ≤ 90 then c.toNat + 32 else c.toNat := by
  simp only [Char.toLower]
  by_cases h : 65 ≤ c.toNat ∧ c.toNat ≤ 90
  · rw [if_pos ⟨h.1, h.2⟩, if_pos h]
    rw [Char.ofNat, dif_pos (Or.inl (by omega : c.toNat + 32 < 55296))]
    rfl
  · rw [if_neg h, if_neg h]

theorem phChar_not_digit (c : Char) (h : phChar c = true) : isDigitC c = false := by
  simp only [phChar, isUpperAZ, isPySpace, Bool.or_eq_true, Bool.and_eq_true,
    decide_eq_true_eq] at h
  simp only [isDigitC, Bool.and_eq_true, decide_eq_true_eq, Bool.and_eq_false_iff,
    decide_eq_false_iff_not]
  omega

theorem phChar_not_emoji (c : Char) (h : phChar c = true) : emojiChar c = false := by
  simp only [phChar, isUpperAZ, isPySpace, Bool.or_eq_true, Bool.and_eq_true,
    decide_eq_true_eq] at h
  simp only [emojiChar, Bool.or_eq_false_iff, Bool.and_eq_false_iff,
    decide_eq_false_iff_not]
  omega

theorem phChar_not_h (c : Char) (h : phChar c = true) : (c = 'h' : Bool) = false := by
  by_cases hc : c = 'h'
  · subst hc
    exact absurd h (by decide)
  · simp [hc]

theorem phChar_not_at (c : Char) (h : phChar c = true) : (c = '@' : Bool) = false := by
  by_cases hc : c = '@'
  · subst hc
    exact absurd h (by decide)
  · simp [hc]

theorem phChar_not_lt (c : Char) (h : phChar c = true) :
    (c.toLower = '<'.toLower : Bool) = false := by
  simp only [decide_eq_false_iff_not]
  intro he
  have h1 : (Char.toLower c).toNat = ('<'.toLower).toNat := by rw [he]
  rw [toLower_toNat] at h1
  have h2 : ('<'.toLower).toNat = 60 := by decide
  rw [h2] at h1
  simp only [phChar, isUpperAZ, isPySpace, Bool.or_eq_true, Bool.and_eq_true,
    decide_eq_true_eq] at h
  by_cases hr : 65 ≤ c.toNat ∧ c.toNat ≤ 90
  · rw [if_pos hr] at h1
    omega
  · rw [if_neg hr] at h1
    omega

/-! ## Structural inversion of the matcher -/

theorem mem_mrun_succ {fuel : Nat} {r : RE} {prev : Option Char} {s : List Char}
    {res : List Char × Caps} (h : res ∈ mrun fuel r prev s) : ∃ f, fuel = f + 1 := by
  cases fuel with
  | zero => simp [mrun] at h
  | succ f => exact ⟨f, rfl⟩

theorem inv_seq {f : Nat} {a b : RE} {prev : Option Char} {s : List Char}
    {res : List Char × Caps} (h : res ∈ mrun (f + 1) (.seq a b) prev s) :
    ∃ r1 r2, r1 ∈ mrun f a prev s ∧
      r2 ∈ mrun f b (lastOpt r1.1 prev) (s.drop r1.1.length) ∧
      res.1 = r1.1 ++ r2.1 := by
  simp only [mrun, List.mem_flatMap, List.mem_map] at h
  obtain ⟨r1, h1, r2, h2, heq⟩ := h
  exact ⟨r1, r2, h1, h2, by rw [← heq]⟩

theorem inv_cls {fuel : Nat} {q : Char → Bool} {prev : Option Char} {s : List Char}
    {res : List Char × Caps} (h : res ∈ mrun fuel (.cls q) prev s) :
    ∃ c cs, s = c :: cs ∧ res.1 = [c] ∧ q c = true := by
  obtain ⟨f, rfl⟩ := mem_mrun_succ h
  cases s with
  | nil => simp [mrun] at h
  | cons c cs =>
    simp only [mrun] at h
    by_cases hp : q c = true
    · rw [if_pos hp] at h
      simp only [List.mem_singleton] at h
      subst h
      exact ⟨c, cs, rfl, rfl, hp⟩
    · rw [if_neg hp] at h
      simp at h

theorem inv_wordB {fuel : Nat} {prev : Option Char} {s : List Char}
    {res : List Char × Caps} (h : res ∈ mrun fuel .wordB prev s) :
    res.1 = [] ∧ (isWordOpt prev != hdWord s) = true := by
  obtain ⟨f, rfl⟩ := mem_mrun_succ h
  simp only [mrun] at h
  by_cases hb : (isWordOpt prev != hdWord s) = true
  · rw [if_pos hb] at h
    simp only [List.mem_singleton] at h
    subst h
    exact ⟨rfl, hb⟩
  · rw [if_neg hb] at h
    simp at h

theorem inv_eps {fuel : Nat} {prev : Option Char} {s : List Char}
    {res : List Char × Caps} (h : res ∈ mrun fuel .eps prev s) : res.1 = [] := by
  obtain ⟨f, rfl⟩ := mem_mrun_succ h
  simp only [mrun, List.mem_singleton] at h
  subst h
  rfl

/-- Inversion for the repetition of a single class: the consumed characters all
satisfy the class and their number respects both repetition bounds. -/
theorem inv_rep_cls (q : Char → Bool) :
    ∀ (fuel lo : Nat) (hi : Option Nat) (g : Bool) (prev : Option Char)
      (s : List Char) (res : List Char × Caps),
      res ∈ mrun fuel (.rep (.cls q) lo hi g) prev s →
      res.1.all q = true ∧ lo ≤ res.1.length ∧
        ∀ hh, hi = some hh → res.1.length ≤ hh := by
  intro fuel
  induction fuel with
  | zero => intro lo hi g prev s res h; simp [mrun] at h
  | succ f ih =>
    intro lo hi g prev s res h
    simp only [mrun] at h
    have hmore : ∀ res2 : List Char × Caps,
        res2 ∈ (if hi = some 0 then []
          else
            (mrun f (.cls q) prev s).flatMap fun r1 =>
              if r1.1.isEmpty then []
              else
                (mrun f (.rep (.cls q) (lo - 1) (hi.map (fun h => h - 1)) g)
                    (lastOpt r1.1 prev) (s.drop r1.1.length)).map
                  fun r2 => (r1.1 ++ r2.1, r1.2 ++ r2.2)) →
        res2.1.all q = true ∧ lo ≤ res2.1.length ∧
          ∀ hh, hi = some hh → res2.1.length ≤ hh := by
      intro res2 h2
      by_cases hh0 : hi = some 0
      · rw [if_pos hh0] at h2
        simp at h2
      · rw [if_neg hh0] at h2
        simp only [List.mem_flatMap] at h2
        obtain ⟨r1, h1, hif⟩ := h2
        by_cases he : r1.1.isEmpty = true
        · rw [if_pos he] at hif
          simp at hif
        · rw [if_neg he] at hif
          simp only [List.mem_map] at hif
          obtain ⟨r2, hr2, heq⟩ := hif
          obtain ⟨c, cs, hs, hr1, hqc⟩ := inv_cls h1
          obtain ⟨hall2, hlo2, hhi2⟩ := ih (lo - 1) (hi.map (fun h => h - 1)) g _ _ r2 hr2
          have hres : res2.1 = c :: r2.1 := by
            rw [← heq]
            simp [hr1]
          refine ⟨?_, ?_, ?_⟩
          · rw [hres]
            simp [hqc, hall2]
          · rw [hres]
            simp only [List.length_cons]
            omega
          · intro hh hhi
            rw [hres]
            simp only [List.length_cons]
            have h2' := hhi2 (hh - 1) (by rw [hhi]; rfl)
            have : hh ≠ 0 := fun h0 => hh0 (by rw [hhi, h0])
            omega
    have hstop : ∀ res2 : List Char × Caps,
        res2 ∈ (if lo = 0 then [(([] : List Char), ([] : Caps))] else []) →
        res2.1.all q = true ∧ lo ≤ res2.1.length ∧
          ∀ hh, hi = some hh → res2.1.length ≤ hh := by
      intro res2 h2
      by_cases hl : lo = 0
      · rw [if_pos hl] at h2
        simp only [List.mem_singleton] at h2
        subst h2
        exact ⟨rfl, by omega, fun hh _ => by simp⟩
      · rw [if_neg hl] at h2
        simp at h2
    cases g with
    | true =>
      rw [if_pos rfl] at h
      rcases List.mem_append.mp h with h | h
      · exact hmore res h
      · exact hstop res h
    | false =>
      rw [if_neg (by simp)] at h
      rcases List.mem_append.mp h with h | h
      · exact hstop res h
      · exact hmore res h

/-! ## Windows over placeholder text -/

/-- No non matching character of the left part lies inside an all P window. -/
theorem window_bound (P : Char → Bool) (u z : List Char) (k : Nat) (hk : k < u.length)
    (hku : P (u[k]) = false) {n : Nat}
    (hall : ((u ++ z).take n).all P = true) : n ≤ k := by
  by_contra hn
  push_neg at hn
  have hk2 : k < ((u ++ z).take n).length := by
    simp only [List.length_take, List.length_append, lt_min_iff]
    omega
  have hel : ((u ++ z).take n)[k] = u[k] := by
    rw [List.getElem_take]
    exact List.getElem_append_left hk
  have hP := List.all_eq_true.mp hall _ (List.getElem_mem hk2)
  rw [hel, hku] at hP
  exact absurd hP (by simp)

/-- Decidable check: no all P prefix window of length at least m exists. -/
def noWindowAll (P : Char → Bool) (m : Nat) (u : List Char) : Bool :=
  (List.range (u.length + 1)).all fun n => !(m ≤ n && (u.take n).all P)

/-- Decidable check over every suffix of a token. -/
def allSuffixNoWindow (P : Char → Bool) (m : Nat) (t : List Char) : Bool :=
  (List.range (t.length + 1)).all fun j => noWindowAll P m (t.drop j)

theorem no_window (P : Char → Bool) (m : Nat) (u z : List Char)
    (hnw : noWindowAll P m u = true)
    (k : Nat) (hk : k < u.length) (hku : P (u[k]) = false)
    (n : Nat) (hm : m ≤ n) (hall : ((u ++ z).take n).all P = true) : False := by
  have hn := window_bound P u z k hk hku hall
  have htake : (u ++ z).take n = u.take n := by
    rw [List.take_append_eq_append_take]
    have h0 : n - u.length = 0 := by omega
    rw [h0]
    simp
  rw [htake] at hall
  have h2 := List.all_eq_true.mp hnw n (by simp only [List.mem_range]; omega)
  simp only [hall, Bool.and_true, Bool.not_eq_true', decide_eq_false_iff_not] at h2
  exact h2 hm

/-- Every suffix is a drop. -/
theorem suffix_eq_drop {u t : List Char} (h : u <:+ t) :
    ∃ j, j ≤ t.length ∧ u = t.drop j := by
  obtain ⟨pre, hpre⟩ := h
  refine ⟨pre.length, ?_, ?_⟩
  · rw [← hpre]
    simp
  · rw [← hpre, List.drop_left]

/-- A non empty suffix ends in the last character of the whole list. -/
theorem suffix_getLast? {u t : List Char} (h : u <:+ t) (hne : u ≠ []) :
    u.getLast? = t.getLast? := by
  obtain ⟨pre, hpre⟩ := h
  rw [← hpre]
  cases u with
  | nil => exact absurd rfl hne
  | cons c cs => rw [List.getLast?_append_cons]

/-- The last character as an indexed element. -/
theorem exists_last_index {u : List Char} (c : Char) (hc : u.getLast? = some c) :
    ∃ k, ∃ hk : k < u.length, u[k] = c := by
  cases u with
  | nil => simp at hc
  | cons x xs =>
    refine ⟨(x :: xs).length - 1, by simp, ?_⟩
    rw [← List.getLast_eq_getElem (x :: xs) (by simp)]
    rw [List.getLast?_eq_getLast _ (by simp)] at hc
    exact Option.some_injective _ hc

/-- A suffix of a concatenation is a suffix of the right part, or a non empty
suffix of the left part followed by the whole right part. -/
theorem suffix_append_cases {s' A B : List Char} (h : s' <:+ A ++ B) :
    s' <:+ B ∨ ∃ a', a' <:+ A ∧ a' ≠ [] ∧ s' = a' ++ B := by
  obtain ⟨j, hj, hdrop⟩ := suffix_eq_drop h
  simp only [List.length_append] at hj
  by_cases hjA : A.length ≤ j
  · left
    rw [hdrop]
    have hj2 : j = A.length + (j - A.length) := by omega
    rw [hj2, List.drop_append]
    exact List.drop_suffix _ _
  · right
    refine ⟨A.drop j, List.drop_suffix _ _, ?_, ?_⟩
    · intro hnil
      have := congrArg List.length hnil
      simp only [List.length_drop, List.length_nil] at this
      omega
    · rw [hdrop, List.drop_append_of_le_length (by omega)]

/-- The window argument for a non empty suffix of a placeholder token followed
by arbitrary text: tokens end in a bracket, which no relevant class accepts,
so the window is confined to the token, where the decidable check refutes it. -/
theorem tok_no_window (P : Char → Bool) (m : Nat) (hPbr : P ']' = false)
    (t : List Char) (htok : t ∈ REDACTED_TOKENS)
    (hts : allSuffixNoWindow P m t = true)
    (u : List Char) (hu : u <:+ t) (hne : u ≠ []) (z : List Char)
    (n : Nat) (hmn : m ≤ n) (hall : ((u ++ z).take n).all P = true) : False := by
  obtain ⟨j, hj, hje⟩ := suffix_eq_drop hu
  have hnw : noWindowAll P m u = true := by
    have := List.all_eq_true.mp hts j (by simp only [List.mem_range]; omega)
    rw [hje]
    exact this
  have hlastt : t.getLast? = some ']' := by
    simp only [REDACTED_TOKENS, List.mem_cons, List.mem_singleton,
      List.not_mem_nil, or_false] at htok
    rcases htok with h | h | h | h | h | h <;> subst h <;> rfl
  have hlast : u.getLast? = some ']' := by
    rw [suffix_getLast? hu hne]
    exact hlastt
  obtain ⟨k, hk, hke⟩ := exists_last_index _ hlast
  exact no_window P m u z hnw k hk (by rw [hke]; exact hPbr) n hmn hall

/-- The general window refutation over placeholder text, for a class rejecting
the bracket and all whitespace. -/
theorem ph_window_gen (P : Char → Bool) (m : Nat) (hm : 1 ≤ m)
    (hPbr : P ']' = false) (hPsp : ∀ c, isPySpace c = true → P c = false)
    (htoks : ∀ t ∈ REDACTED_TOKENS, allSuffixNoWindow P m t = true)
    (s0 : List Char) (hph : PlaceholderText s0) :
    ∀ s', s' <:+ s0 → ∀ n, m ≤ n → n ≤ s'.length →
      (s'.take n).all P = true → False := by
  induction hph with
  | tok t ht =>
    intro s' hs' n hmn hns hall
    rcases eq_or_ne s' [] with he | hne
    · subst he
      simp only [List.length_nil] at hns
      omega
    · exact tok_no_window P m hPbr t ht (htoks t ht) s' hs' hne [] n hmn
        (by rw [List.append_nil]; exact hall)
  | app t ht w hw r hr ih =>
    intro s' hs' n hmn hns hall
    rcases suffix_append_cases hs' with hsr | ⟨a', ha', hane, heq⟩
    · exact ih s' hsr n hmn (by exact hns) hall
    · subst heq
      rcases suffix_append_cases ha' with haw | ⟨t', ht', htne, heq2⟩
      · cases a' with
        | nil => exact hane rfl
        | cons c cs =>
          have hcw : c ∈ w := haw.subset (by simp)
          have h0 : P ((c :: cs)[0]) = false := by
            simp only [List.getElem_cons_zero]
            exact hPsp c (List.all_eq_true.mp hw c hcw)
          have := window_bound P (c :: cs) r 0 (by simp) h0 hall
          omega
      · subst heq2
        have hall2 : ((t' ++ (w ++ r)).take n).all P = true := by
          rw [← List.append_assoc]
          exact hall
        exact tok_no_window P m hPbr t ht (htoks t ht) t' ht' htne (w ++ r) n hmn hall2

/-! ## The RIB pattern matches nowhere in placeholder text -/

theorem rib_match_shape {fuel : Nat} {prev : Option Char} {s : List Char}
    {res : List Char × Caps} (h : res ∈ mrun fuel RIB_PATTERN prev s) :
    ∃ n, 10 ≤ n ∧ n ≤ s.length ∧ (s.take n).all upAlnum = true := by
  obtain ⟨f, rfl⟩ := mem_mrun_succ h
  obtain ⟨r1, r2, h1, h2, _⟩ := inv_seq h
  obtain ⟨hr1e, _⟩ := inv_wordB h1
  rw [hr1e] at h2
  simp only [List.length_nil, List.drop_zero] at h2
  obtain ⟨f2, hf2⟩ := mem_mrun_succ h2
  rw [hf2] at h2
  obtain ⟨r3, r4, h3, _, _⟩ := inv_seq h2
  obtain ⟨hall, hlo, _⟩ := inv_rep_cls upAlnum _ _ _ _ _ _ r3 h3
  obtain ⟨t, ht⟩ := mrun_consumed _ _ _ _ r3 h3
  refine ⟨r3.1.length, by omega, ?_, ?_⟩
  · rw [ht]
    simp
  · rw [ht, List.take_left]
    exact hall

theorem upAlnum_not_space (c : Char) (h : isPySpace c = true) : upAlnum c = false := by
  simp only [isPySpace, Bool.or_eq_true, decide_eq_true_eq, Bool.and_eq_true] at h
  simp only [upAlnum, isUpperAZ, isDigitC, Bool.or_eq_false_iff, Bool.and_eq_false_iff,
    decide_eq_false_iff_not]
  omega

theorem tokens_rib_ok : ∀ t ∈ REDACTED_TOKENS, allSuffixNoWindow upAlnum 10 t = true := by
  decide

theorem rib_nomatch (s0 : List Char) (hph : PlaceholderText s0)
    (s' : List Char) (hs' : s' <:+ s0) (fuel : Nat) (prev : Option Char) :
    mrun fuel RIB_PATTERN prev s' = [] := by
  apply List.eq_nil_iff_forall_not_mem.mpr
  intro res hres
  obtain ⟨n, hn10, hnlen, hall⟩ := rib_match_shape hres
  exact ph_window_gen upAlnum 10 (by omega) (by decide) upAlnum_not_space
    tokens_rib_ok s0 hph s' hs' n hn10 hnlen hall

/-! ## The BIC pattern matches nowhere in placeholder text -/

/-- The class of characters a BIC match can consume: [A-Z0-9] and the space. -/
def bicQ (c : Char) : Bool := upAlnum c || c.toNat = 0x20

theorem all_mono {p q : Char → Bool} (h : ∀ c, p c = true → q c = true)
    {l : List Char} (hl : l.all p = true) : l.all q = true :=
  List.all_eq_true.mpr fun c hc => h c (List.all_eq_true.mp hl c hc)

theorem all_getLast {p : Char → Bool} {l : List Char} {c : Char}
    (h : l.all p = true) (hc : l.getLast? = some c) : p c = true := by
  obtain ⟨hne, heq⟩ := List.mem_getLast?_eq_getLast (Option.mem_def.mpr hc)
  subst heq
  exact List.all_eq_true.mp h _ (List.getLast_mem hne)

theorem lastOpt_nil (prev : Option Char) : lastOpt [] prev = prev := rfl

theorem lastOpt_word {l : List Char} (prev : Option Char) {c : Char}
    (hc : l.getLast? = some c) (hw : isWordC c = true) :
    isWordOpt (lastOpt l prev) = true := by
  simp only [lastOpt, hc, isWordOpt]
  exact hw

theorem upAlnum_word (c : Char) (h : upAlnum c = true) : isWordC c = true := by
  simp only [upAlnum, Bool.or_eq_true] at h
  rcases h with h | h
  · simp [isWordC, h]
  · simp [isWordC, h]

theorem lastOpt_word2 {l : List Char} {prev : Option Char}
    (hne : l ≠ []) (hall : l.all upAlnum = true) :
    isWordOpt (lastOpt l prev) = true := by
  obtain ⟨c, hc⟩ : ∃ c, l.getLast? = some c :=
    Option.isSome_iff_exists.mp (List.getLast?_isSome.mpr hne)
  exact lastOpt_word prev hc (upAlnum_word c (all_getLast hall hc))

theorem az_bicQ (c : Char) (h : isUpperAZ c = true) : bicQ c = true := by
  simp [bicQ, upAlnum, h]

theorem up_bicQ (c : Char) (h : upAlnum c = true) : bicQ c = true := by
  simp [bicQ, h]

theorem spc_bicQ (c : Char) (h : decide (c = ' ') = true) : bicQ c = true := by
  rw [decide_eq_true_eq] at h
  subst h
  decide

/-- Inversion for the optional fragment: either nothing is consumed or the
body matched once. -/
theorem inv_opt {fuel : Nat} {a : RE} {prev : Option Char} {s : List Char}
    {res : List Char × Caps} (h : res ∈ mrun fuel (opt a) prev s) :
    res.1 = [] ∨ ∃ f r1, fuel = f + 1 ∧ r1 ∈ mrun f a prev s ∧ res.1 = r1.1 := by
  obtain ⟨f, rfl⟩ := mem_mrun_succ h
  have h' : res ∈ ((mrun f a prev s).flatMap fun r1 =>
      if r1.1.isEmpty then []
      else (mrun f (.rep a 0 (some 0) true) (lastOpt r1.1 prev) (s.drop r1.1.length)).map
        fun r2 => (r1.1 ++ r2.1, r1.2 ++ r2.2)) ++ [(([] : List Char), ([] : Caps))] := h
  rcases List.mem_append.mp h' with hm | hm
  · obtain ⟨r1, hr1, hmem⟩ := List.mem_flatMap.mp hm
    by_cases hemp : r1.1.isEmpty
    · rw [if_pos hemp] at hmem
      simp at hmem
    · rw [if_neg hemp] at hmem
      obtain ⟨r2, hr2, heq⟩ := List.mem_map.mp hmem
      obtain ⟨f2, hf2⟩ := mem_mrun_succ hr2
      rw [hf2] at hr2
      have hr2' : r2 ∈ [(([] : List Char), ([] : Caps))] := hr2
      have hr2e : r2.1 = [] := by
        rw [List.mem_singleton.mp hr2']
      right
      refine ⟨f, r1, rfl, hr1, ?_⟩
      rw [← heq]
      simp [hr2e]
  · left
    rw [List.mem_singleton.mp hm]

/-- A word boundary with a word character on the left forces a non word
character (or the end) on the right. -/
theorem word_bne_imp {p : Option Char} {s : List Char}
    (h : (isWordOpt p != hdWord s) = true) (hp : isWordOpt p = true) :
    hdWord s = false := by
  cases hs : hdWord s
  · rfl
  · rw [hp, hs] at h
    simp at h

/-- The character preceding the trailing boundary of a BIC match is a word
character: the optional branch ends in [A-Z0-9] when present, and the
mandatory pair before it always does. -/
theorem gg_prev_word (gl : List Char)
    (hga : gl = [] ∨ ∃ c, gl.getLast? = some c ∧ isWordC c = true)
    (u : List Char) (hune : u ≠ []) (huall : u.all upAlnum = true) :
    ∀ prev, isWordOpt (lastOpt gl (lastOpt u prev)) = true := by
  intro prev
  rcases hga with gE | ⟨c, hc, hw⟩
  · rw [gE, lastOpt_nil]
    exact lastOpt_word2 hune huall
  · exact lastOpt_word (lastOpt u prev) hc hw

/-- Any BIC match consumes at least eight characters, all of them upper case
alphanumerics or spaces, starting with four upper case letters, and the first
character past the match is not a word character. -/
theorem bic_match_shape {fuel : Nat} {prev : Option Char} {s : List Char}
    {res : List Char × Caps} (h : res ∈ mrun fuel BIC_PATTERN prev s) :
    ∃ n, 8 ≤ n ∧ n ≤ s.length ∧ ((s.take 4).all isUpperAZ = true) ∧
      ((s.take n).all bicQ = true) ∧ hdWord (s.drop n) = false := by
  obtain ⟨f1, rfl⟩ := mem_mrun_succ h
  obtain ⟨rB, rb1, hB, h1, e0⟩ := inv_seq h
  obtain ⟨eB, _⟩ := inv_wordB hB
  rw [eB] at h1
  simp only [List.length_nil, List.drop_zero] at h1
  obtain ⟨f2, rfl⟩ := mem_mrun_succ h1
  obtain ⟨a4, rb2, hA4, h2, e1⟩ := inv_seq h1
  obtain ⟨a4all, a4lo, a4hi⟩ := inv_rep_cls isUpperAZ _ _ _ _ _ _ a4 hA4
  have a4len : a4.1.length = 4 := le_antisymm (a4hi 4 rfl) a4lo
  obtain ⟨f3, rfl⟩ := mem_mrun_succ h2
  obtain ⟨o1, rb3, hO1, h3, e2⟩ := inv_seq h2
  obtain ⟨o1all, _, o1hi⟩ := inv_rep_cls (fun x => decide (x = ' ')) _ _ _ _ _ _ o1 hO1
  have o1len : o1.1.length ≤ 1 := o1hi 1 rfl
  obtain ⟨f4, rfl⟩ := mem_mrun_succ h3
  obtain ⟨a2, rb4, hA2, h4, e3⟩ := inv_seq h3
  obtain ⟨a2all, a2lo, a2hi⟩ := inv_rep_cls isUpperAZ _ _ _ _ _ _ a2 hA2
  have a2len : a2.1.length = 2 := le_antisymm (a2hi 2 rfl) a2lo
  obtain ⟨f5, rfl⟩ := mem_mrun_succ h4
  obtain ⟨o2, rb5, hO2, h5, e4⟩ := inv_seq h4
  obtain ⟨o2all, _, o2hi⟩ := inv_rep_cls (fun x => decide (x = ' ')) _ _ _ _ _ _ o2 hO2
  have o2len : o2.1.length ≤ 1 := o2hi 1 rfl
  obtain ⟨f6, rfl⟩ := mem_mrun_succ h5
  obtain ⟨u2, rb6, hU2, h6, e5⟩ := inv_seq h5
  obtain ⟨u2all, u2lo, u2hi⟩ := inv_rep_cls upAlnum _ _ _ _ _ _ u2 hU2
  have u2len : u2.1.length = 2 := le_antisymm (u2hi 2 rfl) u2lo
  have u2ne : u2.1 ≠ [] := by
    intro hnil
    rw [hnil] at u2len
    exact absurd u2len (by decide)
  obtain ⟨f7, rfl⟩ := mem_mrun_succ h6
  obtain ⟨gg, rb7, hG, h7, e6⟩ := inv_seq h6
  have gprop : gg.1.all bicQ = true ∧
      (gg.1 = [] ∨ ∃ c, gg.1.getLast? = some c ∧ isWordC c = true) := by
    rcases inv_opt hG with gE | ⟨fg, r1g, hfg, hr1g, gEq⟩
    · constructor
      · rw [gE]
        rfl
      · exact Or.inl gE
    · obtain ⟨fg2, hfg2⟩ := mem_mrun_succ hr1g
      rw [hfg2] at hr1g
      obtain ⟨ga, gb2, hga, hgb, eg⟩ := inv_seq hr1g
      obtain ⟨gaall, _, _⟩ := inv_rep_cls (fun x => decide (x = ' ')) _ _ _ _ _ _ ga hga
      obtain ⟨gball, gblo, gbhi⟩ := inv_rep_cls upAlnum _ _ _ _ _ _ gb2 hgb
      have gbne : gb2.1 ≠ [] := by
        intro hnil
        rw [hnil] at gblo
        exact absurd gblo (by decide)
      obtain ⟨c, hc⟩ : ∃ c, gb2.1.getLast? = some c :=
        Option.isSome_iff_exists.mp (List.getLast?_isSome.mpr gbne)
      constructor
      · rw [gEq, eg, List.all_append, all_mono spc_bicQ gaall, all_mono up_bicQ gball]
        rfl
      · refine Or.inr ⟨c, ?_, upAlnum_word c (all_getLast gball hc)⟩
        rw [gEq, eg, List.getLast?_append_of_ne_nil _ gbne]
        exact hc
  obtain ⟨gall, gword⟩ := gprop
  obtain ⟨f8, rfl⟩ := mem_mrun_succ h7
  obtain ⟨wB2, eps2, hW, hE, e7⟩ := inv_seq h7
  obtain ⟨eW, hbound⟩ := inv_wordB hW
  have eE : eps2.1 = [] := inv_eps hE
  have eRes : res.1 = a4.1 ++ (o1.1 ++ (a2.1 ++ (o2.1 ++ (u2.1 ++ gg.1)))) := by
    rw [e0, eB, e1, e2, e3, e4, e5, e6, e7, eW, eE]
    simp
  have hlen : res.1.length =
      a4.1.length + (o1.1.length + (a2.1.length + (o2.1.length +
        (u2.1.length + gg.1.length)))) := by
    rw [eRes]
    simp [List.length_append]
  obtain ⟨t, ht⟩ := mrun_consumed _ _ _ _ res h
  have hhd := word_bne_imp hbound (gg_prev_word gg.1 gword u2.1 u2ne u2all _)
  have hdd : (((((s.drop a4.1.length).drop o1.1.length).drop a2.1.length).drop
      o2.1.length).drop u2.1.length).drop gg.1.length = s.drop res.1.length := by
    simp only [List.drop_drop]
    congr 1
    omega
  rw [hdd] at hhd
  refine ⟨res.1.length, by omega, ?_, ?_, ?_, hhd⟩
  · rw [ht]
    simp only [List.length_append]
    omega
  · have h4s : s = a4.1 ++ ((o1.1 ++ (a2.1 ++ (o2.1 ++ (u2.1 ++ gg.1)))) ++ t) := by
      rw [ht, eRes, List.append_assoc]
    have htake4 : s.take 4 = a4.1 := by
      rw [← a4len, h4s, List.take_left]
    rw [htake4]
    exact a4all
  · have hstake : s.take res.1.length = res.1 := by
      rw [ht, List.take_left]
    rw [hstake, eRes]
    simp only [List.all_append, Bool.and_eq_true]
    exact ⟨all_mono az_bicQ a4all, all_mono spc_bicQ o1all, all_mono az_bicQ a2all,
      all_mono spc_bicQ o2all, all_mono up_bicQ u2all, gall⟩

/-- Every redaction placeholder ends with the closing bracket. -/
theorem tokens_last (t : List Char) (htok : t ∈ REDACTED_TOKENS) :
    t.getLast? = some ']' := by
  simp only [REDACTED_TOKENS, List.mem_cons, List.mem_singleton,
    List.not_mem_nil, or_false] at htok
  rcases htok with h | h | h | h | h | h <;> subst h <;> rfl

/-- No position of u can start a BIC shaped window lying strictly inside u. -/
def noBicInner (u : List Char) : Bool :=
  (List.range u.length).all fun n =>
    !(decide (8 ≤ n) && (u.take 4).all isUpperAZ && (u.take n).all bicQ &&
      !isWordC (u.getD n ' '))

/-- The inner check over every suffix of a token. -/
def noBicTok (t : List Char) : Bool :=
  (List.range t.length).all fun j => noBicInner (t.drop j)

theorem tokens_bic_ok : ∀ t ∈ REDACTED_TOKENS, noBicTok t = true := by
  decide

/-- No BIC shaped window starts inside a placeholder token, whatever follows
the token. -/
theorem tok_no_bic (t : List Char) (htok : t ∈ REDACTED_TOKENS)
    (u : List Char) (hu : u <:+ t) (hne : u ≠ []) (z : List Char)
    (n : Nat) (h8 : 8 ≤ n)
    (h4 : ((u ++ z).take 4).all isUpperAZ = true)
    (hall : ((u ++ z).take n).all bicQ = true)
    (hbd : hdWord ((u ++ z).drop n) = false) : False := by
  by_cases hn : n < u.length
  · have ht4 : (u ++ z).take 4 = u.take 4 := by
      rw [List.take_append_eq_append_take, Nat.sub_eq_zero_of_le (by omega),
        List.take_zero, List.append_nil]
    have htn : (u ++ z).take n = u.take n := by
      rw [List.take_append_eq_append_take, Nat.sub_eq_zero_of_le (by omega),
        List.take_zero, List.append_nil]
    have hdn : (u ++ z).drop n = u.drop n ++ z :=
      List.drop_append_of_le_length (by omega)
    have hdc : u.drop n = u[n] :: u.drop (n + 1) := List.drop_eq_getElem_cons hn
    have hwn : isWordC (u[n]) = false := by
      rw [hdn, hdc, List.cons_append] at hbd
      exact hbd
    obtain ⟨j, hj, hje⟩ := suffix_eq_drop hu
    have hul : u.length = t.length - j := by
      rw [hje, List.length_drop]
    have h0 : 0 < u.length := List.length_pos.mpr hne
    have hjlt : j < t.length := by omega
    have hchk : noBicInner u = true := by
      rw [hje]
      exact List.all_eq_true.mp (tokens_bic_ok t htok) j (List.mem_range.mpr hjlt)
    have hinner : (!(decide (8 ≤ n) && (u.take 4).all isUpperAZ &&
        (u.take n).all bicQ && !isWordC (u.getD n ' '))) = true :=
      List.all_eq_true.mp hchk n (List.mem_range.mpr hn)
    rw [decide_eq_true h8, ← ht4, h4, ← htn, hall,
      List.getD_eq_getElem u ' ' hn, hwn] at hinner
    simp at hinner
  · push_neg at hn
    have hsplit : (u ++ z).take n = u ++ z.take (n - u.length) := by
      rw [List.take_append_eq_append_take, List.take_of_length_le hn]
    rw [hsplit, List.all_append, Bool.and_eq_true] at hall
    have hlu : u.getLast? = some ']' := by
      rw [suffix_getLast? hu hne]
      exact tokens_last t htok
    have := all_getLast hall.1 hlu
    exact absurd this (by decide)

/-- No suffix of placeholder only text carries a BIC shaped window. -/
theorem ph_no_bic (s0 : List Char) (hph : PlaceholderText s0) :
    ∀ s', s' <:+ s0 → ∀ n, 8 ≤ n → n ≤ s'.length →
      ((s'.take 4).all isUpperAZ = true) → ((s'.take n).all bicQ = true) →
      hdWord (s'.drop n) = false → False := by
  induction hph with
  | tok t ht =>
    intro s' hs' n h8 hlen h4 hall hbd
    rcases eq_or_ne s' [] with he | hne
    · subst he
      simp only [List.length_nil] at hlen
      omega
    · refine tok_no_bic t ht s' hs' hne [] n h8 ?_ ?_ ?_
      · rw [List.append_nil]
        exact h4
      · rw [List.append_nil]
        exact hall
      · rw [List.append_nil]
        exact hbd
  | app t ht w hw r hr ih =>
    intro s' hs' n h8 hlen h4 hall hbd
    rcases suffix_append_cases hs' with hsr | ⟨a', ha', hane, heq⟩
    · exact ih s' hsr n h8 hlen h4 hall hbd
    · subst heq
      rcases suffix_append_cases ha' with haw | ⟨t', ht', htne, heq2⟩
      · cases a' with
        | nil => exact hane rfl
        | cons c cs =>
          have hcw : c ∈ w := haw.subset (by simp)
          have hcsp : isPySpace c = true := List.all_eq_true.mp hw c hcw
          rw [List.cons_append] at h4
          have e4 : (c :: (cs ++ r)).take 4 = c :: (cs ++ r).take 3 := rfl
          rw [e4, List.all_cons, Bool.and_eq_true] at h4
          have hcup : upAlnum c = true := by
            simp [upAlnum, h4.1]
          have hfalse := upAlnum_not_space c hcsp
          rw [hfalse] at hcup
          exact Bool.false_ne_true hcup
      · subst heq2
        refine tok_no_bic t ht t' ht' htne (w ++ r) n h8 ?_ ?_ ?_
        · rw [← List.append_assoc]
          exact h4
        · rw [← List.append_assoc]
          exact hall
        · rw [← List.append_assoc]
          exact hbd

/-- BIC_PATTERN matches at no suffix of placeholder only text. -/
theorem bic_nomatch (s0 : List Char) (hph : PlaceholderText s0)
    (s' : List Char) (hs' : s' <:+ s0) (fuel : Nat) (prev : Option Char) :
    mrun fuel BIC_PATTERN prev s' = [] := by
  apply List.eq_nil_iff_forall_not_mem.mpr
  intro res hres
  obtain ⟨n, h8, hlen, h4, hall, hbd⟩ := bic_match_shape hres
  exact ph_no_bic s0 hph s' hs' n h8 hlen h4 hall hbd

/-! ## Identity of the whole sanitizer on placeholder only text -/

theorem ph_head (s : List Char) (hph : PlaceholderText s) :
    ∃ rest, s = '[' :: rest := by
  induction hph with
  | tok t ht =>
    simp only [REDACTED_TOKENS, List.mem_cons, List.mem_singleton,
      List.not_mem_nil, or_false] at ht
    rcases ht with h | h | h | h | h | h <;> subst h <;> exact ⟨_, rfl⟩
  | app t ht w hw r hr ih =>
    simp only [REDACTED_TOKENS, List.mem_cons, List.mem_singleton,
      List.not_mem_nil, or_false] at ht
    rcases ht with h | h | h | h | h | h <;> subst h <;> exact ⟨_, rfl⟩

theorem ph_last (s : List Char) (hph : PlaceholderText s) :
    s.getLast? = some ']' := by
  induction hph with
  | tok t ht => exact tokens_last t ht
  | app t ht w hw r hr ih =>
    have hrne : r ≠ [] := by
      intro hnil
      rw [hnil] at ih
      simp at ih
    rw [List.getLast?_append_of_ne_nil _ hrne]
    exact ih

/-- str.strip is the identity when neither end is whitespace. -/
theorem pyStripL_id (l : List Char)
    (hh : ∀ c, l.head? = some c → isPySpace c = false)
    (hl : ∀ c, l.getLast? = some c → isPySpace c = false) : pyStripL l = l := by
  unfold pyStripL
  have h1 : l.dropWhile isPySpace = l := by
    cases l with
    | nil => rfl
    | cons c cs =>
      rw [List.dropWhile_cons, if_neg]
      have := hh c rfl
      simp [this]
  rw [h1]
  have h2 : l.reverse.dropWhile isPySpace = l.reverse := by
    cases hrev : l.reverse with
    | nil => rfl
    | cons c cs =>
      rw [List.dropWhile_cons, if_neg]
      have hlast : l.getLast? = some c := by
        rw [← List.head?_reverse, hrev]
        rfl
      have := hl c hlast
      simp [this]
  rw [h2, List.reverse_reverse]

theorem ph_strip (s : List Char) (hph : PlaceholderText s) : pyStripL s = s := by
  apply pyStripL_id
  · intro c hc
    obtain ⟨rest, hr⟩ := ph_head s hph
    rw [hr] at hc
    simp only [List.head?_cons, Option.some.injEq] at hc
    subst hc
    decide
  · intro c hc
    rw [ph_last s hph] at hc
    simp only [Option.some.injEq] at hc
    subst hc
    decide

/-- A pattern every match of which must contain a character impossible in
placeholder text matches at no suffix of that text. -/
theorem ph_req_nomatch (p : Char → Bool) (r : RE) (hreq : Req p r)
    (hpf : ∀ c, phChar c = true → p c = false)
    (s0 : List Char) (hph : PlaceholderText s0) :
    ∀ (prev : Option Char) (s' : List Char), s' <:+ s0 →
      mrun (bigFuel s') r prev s' = [] := by
  intro prev s' hs'
  apply mrun_nil_of_req p r hreq
  intro c hc
  exact hpf c (ph_chars s0 hph c (hs'.subset hc))

/-- C9: the Content Sanitizer is the identity on every message text consisting
only of [REDACTED] placeholder tokens separated by whitespace: each of the nine
substitution passes finds no match anywhere in such text, and the final strip
removes nothing because the text starts and ends with a bracket. -/
theorem C9_sanitize_idempotent (s : List Char) (hph : PlaceholderText s) :
    clean_message ⟨s⟩ = ⟨s⟩ := by
  have h1 : pySub EMOJI_PATTERN "" ⟨s⟩ = ⟨s⟩ :=
    pySub_id _ _ _ (ph_req_nomatch emojiChar EMOJI_PATTERN req_emoji phChar_not_emoji s hph)
  have h2 : pySub LINK_PATTERN "" ⟨s⟩ = ⟨s⟩ :=
    pySub_id _ _ _ (ph_req_nomatch _ LINK_PATTERN req_link phChar_not_h s hph)
  have h3 : pySub EDITED_PATTERN "" ⟨s⟩ = ⟨s⟩ :=
    pySub_id _ _ _ (ph_req_nomatch _ EDITED_PATTERN req_edited phChar_not_lt s hph)
  have h4 : pySub IBAN_PATTERN "[REDACTED_IBAN]" ⟨s⟩ = ⟨s⟩ :=
    pySub_id _ _ _ (ph_req_nomatch isDigitC IBAN_PATTERN req_iban phChar_not_digit s hph)
  have h5 : pySub RIB_PATTERN "[REDACTED_RIB]" ⟨s⟩ = ⟨s⟩ :=
    pySub_id _ _ _ (fun prev s' hs' => rib_nomatch s hph s' hs' (bigFuel s') prev)
  have h6 : pySub CREDIT_CARD_PATTERN "[REDACTED_CARD]" ⟨s⟩ = ⟨s⟩ :=
    pySub_id _ _ _ (ph_req_nomatch isDigitC CREDIT_CARD_PATTERN req_card phChar_not_digit s hph)
  have h7 : pySub PHONE_PATTERN "[REDACTED_PHONE]" ⟨s⟩ = ⟨s⟩ :=
    pySub_id _ _ _ (ph_req_nomatch isDigitC PHONE_PATTERN req_phone phChar_not_digit s hph)
  have h8 : pySub EMAIL_PATTERN "[REDACTED_EMAIL]" ⟨s⟩ = ⟨s⟩ :=
    pySub_id _ _ _ (ph_req_nomatch _ EMAIL_PATTERN req_email phChar_not_at s hph)
  have h9 : pySub BIC_PATTERN "[REDACTED_BIC]" ⟨s⟩ = ⟨s⟩ :=
    pySub_id _ _ _ (fun prev s' hs' => bic_nomatch s hph s' hs' (bigFuel s') prev)
  have h10 : pyStrip ⟨s⟩ = ⟨s⟩ := by
    unfold pyStrip
    rw [ph_strip s hph]
  simp only [clean_message, remove_emojis]
  rw [h1, h2, h3, h4, h5, h6, h7, h8, h9, h10]

/-- Witness for C9: re-sanitizing a concrete already redacted text is the
identity. -/
theorem C9_witness :
    clean_message ⟨"[REDACTED_IBAN] [REDACTED_PHONE]".data⟩ =
      ⟨"[REDACTED_IBAN] [REDACTED_PHONE]".data⟩ :=
  C9_sanitize_idempotent "[REDACTED_IBAN] [REDACTED_PHONE]".data
    (show PlaceholderText
        ("[REDACTED_IBAN]".data ++ " ".data ++ "[REDACTED_PHONE]".data) from
      PlaceholderText.app _ (by decide) _ (by decide) _
        (PlaceholderText.tok _ (by decide)))
